import Mathlib

/-!
# Cross-fading (colour to grayscale): sequential, OpenMP and MPI variants

A shallow embedding of `crossfade_secuencial.c`, `crossfade_openmp.c` and
`crossfade_mpi.c`.

* Buffers (`unsigned char *`, `int *`) are lists of natural numbers, read with
  `List.getD` and written with `List.set`; a `malloc`ed buffer starts as zeros.
* `int` values are natural numbers: every quantity is non-negative and bounded
  by the byte size `width * height * 3` of the decoded image, which the image
  loader only hands out when it fits an `int`.  `num_frames` is the constant `96`
  in the three programs; it is a parameter here.
* `double` and `float` arithmetic is IEEE-754 binary64 and binary32 with
  round-to-nearest, ties-to-even, every operation rounded on its own in the format
  of its operands (no extended precision, no fused multiply-add).  Values are
  rationals; `fl p` rounds to `p` significant bits.  For `num_frames` in the range
  of `int` all values that occur are zero or lie between `2^(-31)` and `2^8`, so
  neither overflow nor the subnormal range is reached and an unbounded exponent is
  exact.
* The processes of the MPI program run the same code on their own buffers; the
  collective operations are modelled by what they deliver (`scatterv`, `gatherv`).
-/

namespace Crossfade

/-! ## Binary floating point -/

/-- Number of binary digits of `n`, by recursion on a fuel argument. -/
def bitLenAux : ℕ → ℕ → ℕ
  | 0, _ => 0
  | fuel + 1, n => if n = 0 then 0 else bitLenAux fuel (n / 2) + 1

/-- Number of binary digits of `n` (zero for `n = 0`). -/
def bitLen (n : ℕ) : ℕ := bitLenAux n n

/-- Binary exponent of a positive rational `x`: the `e` with `2^e ≤ x < 2^(e+1)`. -/
def flog2 (x : ℚ) : ℤ :=
  let a := x.num.toNat
  let b := x.den
  let e0 : ℤ := (bitLen a : ℤ) - (bitLen b : ℤ)
  if a * 2 ^ bitLen b < b * 2 ^ bitLen a then e0 - 1 else e0

/-- Round to the nearest integer, ties to even. -/
def rne (y : ℚ) : ℤ :=
  let n := ⌊y⌋
  let r := y - n
  if r < 1 / 2 then n else if 1 / 2 < r then n + 1 else if n % 2 = 0 then n else n + 1

/-- Round a positive rational to `p` significant bits, ties to even. -/
def flPos (p : ℕ) (x : ℚ) : ℚ :=
  let s : ℤ := (p : ℤ) - 1 - flog2 x
  (rne (x * 2 ^ s) : ℚ) / 2 ^ s

/-- Round a rational to the nearest binary floating-point number with `p`
significant bits, ties to even. -/
def fl (p : ℕ) (x : ℚ) : ℚ :=
  if x = 0 then 0 else if 0 < x then flPos p x else -flPos p (-x)

/-- Rounding to `double` (binary64). -/
def f64 (x : ℚ) : ℚ := fl 53 x

/-- Rounding to `float` (binary32). -/
def f32 (x : ℚ) : ℚ := fl 24 x

/-- Conversion of a non-negative floating-point value to `unsigned char`:
truncation, reduced modulo 256. -/
def toUChar (x : ℚ) : ℕ := ⌊x⌋.toNat % 256

/-! ## Buffers -/

/-- A freshly allocated buffer of `n` cells (contents modelled as zeros). -/
def malloc (n : ℕ) : List ℕ := List.replicate n 0

/-- Copy `src` into `buf` starting at index `off`, cell by cell. -/
def writeAt : List ℕ → ℕ → List ℕ → List ℕ
  | buf, _, [] => buf
  | buf, off, x :: xs => writeAt (buf.set off x) (off + 1) xs

/-! ## Pixel arithmetic -/

/-- The `double` constant `0.3`. -/
def c_0_3 : ℚ := f64 (3 / 10)

/-- The `double` constant `0.59`. -/
def c_0_59 : ℚ := f64 (59 / 100)

/-- The `double` constant `0.11`. -/
def c_0_11 : ℚ := f64 (11 / 100)

/-- The `double` value of `0.3*r + 0.59*g + 0.11*b` before the cast. -/
def gray_double (r g b : ℕ) : ℚ :=
  f64 (f64 (f64 (c_0_3 * (r : ℚ)) + f64 (c_0_59 * (g : ℚ))) + f64 (c_0_11 * (b : ℚ)))

/-- The cast `(unsigned char)(0.3*r + 0.59*g + 0.11*b)`. -/
def gray_value (r g b : ℕ) : ℕ := toUChar (gray_double r g b)

/-- The quotient `(float)f / (num_frames - 1)`, a `float`. -/
def frame_ratio (num_frames f : ℕ) : ℚ :=
  f32 (f32 (f : ℚ) / f32 ((num_frames : ℚ) - 1))

/-- The weight of the MPI variant: `float P = 1.0f - (float)f / (num_frames - 1)`. -/
def P_mpi (num_frames f : ℕ) : ℚ := f32 (1 - frame_ratio num_frames f)

/-- The weight of the sequential and OpenMP variants:
`float P = 1.0 - (float)f / (num_frames - 1)`, the subtraction done in `double`
and the result converted to `float`. -/
def P_seq (num_frames f : ℕ) : ℚ := f32 (f64 (1 - frame_ratio num_frames f))

/-- The `float` value of `c * P + g * (1 - P)` before the cast. -/
def blend_float (P : ℚ) (c g : ℕ) : ℚ :=
  f32 (f32 ((c : ℚ) * P) + f32 ((g : ℚ) * f32 (1 - P)))

/-- The cast `(unsigned char)(c * P + g * (1 - P))`. -/
def blend (P : ℚ) (c g : ℕ) : ℕ := toUChar (blend_float P c g)

/-! ## Loops shared by the variants -/

/-- One iteration of the grayscale loop (the same body in the three programs). -/
def grayStep (img : List ℕ) (gray : List ℕ) (i : ℕ) : List ℕ :=
  let r := img.getD (i * 3 + 0) 0
  let g := img.getD (i * 3 + 1) 0
  let b := img.getD (i * 3 + 2) 0
  let v := gray_value r g b
  ((gray.set (i * 3 + 0) v).set (i * 3 + 1) v).set (i * 3 + 2) v

/-- The grayscale loop `for (i = 0; i < n; i++)`. -/
def grayLoop (n : ℕ) (img gray : List ℕ) : List ℕ :=
  (List.range n).foldl (grayStep img) gray

/-! ## Row partition of the MPI variant -/

/-- The base number of rows per process, `height / size`. -/
def rows_per_proc (height size : ℕ) : ℕ := height / size

/-- The remaining rows, `height % size`. -/
def extra (height size : ℕ) : ℕ := height % size

/-- The first row of process `rank`. -/
def start_row (height size rank : ℕ) : ℕ :=
  rank * rows_per_proc height size + (if rank < extra height size then rank else extra height size)

/-- The number of rows of process `rank`. -/
def my_rows (height size rank : ℕ) : ℕ :=
  rows_per_proc height size + (if rank < extra height size then 1 else 0)

/-- The number of bytes of the slice of process `rank`. -/
def my_pixels (width height size rank : ℕ) : ℕ := my_rows height size rank * width * 3

/-- The variables of the coordinator loop that fills `sendcounts` and `displs`. -/
structure CountState where
  /-- The running byte offset. -/
  offset : ℕ
  /-- Bytes per process. -/
  sendcounts : List ℕ
  /-- Byte displacement per process. -/
  displs : List ℕ

/-- One iteration of the coordinator loop. -/
def countsStep (width height size : ℕ) (st : CountState) (p : ℕ) : CountState :=
  let n_rows := rows_per_proc height size + (if p < extra height size then 1 else 0)
  let sendcounts := st.sendcounts.set p (n_rows * width * 3)
  let displs := st.displs.set p st.offset
  { offset := st.offset + sendcounts.getD p 0, sendcounts := sendcounts, displs := displs }

/-- The coordinator loop `for (p = 0; p < size; p++)`. -/
def countsLoop (width height size : ℕ) : CountState :=
  (List.range size).foldl (countsStep width height size)
    { offset := 0, sendcounts := malloc size, displs := malloc size }

/-- The array `sendcounts` after the loop. -/
def sendcounts (width height size : ℕ) : List ℕ := (countsLoop width height size).sendcounts

/-- The array `displs` after the loop. -/
def displs (width height size : ℕ) : List ℕ := (countsLoop width height size).displs

/-! ## Collective operations -/

/-- What `MPI_Scatterv` delivers to process `rank`: `sendcounts[rank]` bytes of the
send buffer starting at `displs[rank]`. -/
def scatterv (sendbuf sendcounts displs : List ℕ) (rank : ℕ) : List ℕ :=
  (sendbuf.drop (displs.getD rank 0)).take (sendcounts.getD rank 0)

/-- The receive buffer of the root after `MPI_Gatherv`: the message of process `p`
(its first `sendcount p` bytes, at most `recvcounts[p]` of them) is stored at
`displs[p]`. -/
def gatherv (size : ℕ) (sendbuf : ℕ → List ℕ) (sendcount : ℕ → ℕ)
    (recvcounts displs recvbuf : List ℕ) : List ℕ :=
  (List.range size).foldl
    (fun buf p =>
      writeAt buf (displs.getD p 0) (((sendbuf p).take (sendcount p)).take (recvcounts.getD p 0)))
    recvbuf

/-! ## The MPI variant -/

/-- The buffer `local_img` of process `rank` after `MPI_Scatterv`. -/
def local_img (width height size : ℕ) (img : List ℕ) (rank : ℕ) : List ℕ :=
  writeAt (malloc (my_pixels width height size rank)) 0
    ((scatterv img (sendcounts width height size) (displs width height size) rank).take
      (my_pixels width height size rank))

/-- The buffer `local_gray` of process `rank` after the grayscale loop. -/
def local_gray (width height size : ℕ) (img : List ℕ) (rank : ℕ) : List ℕ :=
  grayLoop (my_rows height size rank * width) (local_img width height size img rank)
    (malloc (my_pixels width height size rank))

/-- One iteration of the per-byte blend loop of the MPI variant. -/
def blendStep (P : ℚ) (img gray frame : List ℕ) (i : ℕ) : List ℕ :=
  frame.set i (blend P (img.getD i 0) (gray.getD i 0))

/-- The per-byte blend loop `for (i = 0; i < n; i++)`. -/
def blendLoop (n : ℕ) (P : ℚ) (img gray frame : List ℕ) : List ℕ :=
  (List.range n).foldl (blendStep P img gray) frame

/-- The buffer `local_frames[f]` of process `rank`. -/
def local_frame (width height size : ℕ) (img : List ℕ) (num_frames f rank : ℕ) : List ℕ :=
  blendLoop (my_rows height size rank * width * 3) (P_mpi num_frames f)
    (local_img width height size img rank) (local_gray width height size img rank)
    (malloc (my_pixels width height size rank))

/-- The buffer `final_frame` of the coordinator for frame `f`, after `MPI_Gatherv`. -/
def final_frame (width height size : ℕ) (img : List ℕ) (num_frames f : ℕ) : List ℕ :=
  gatherv size (fun p => local_frame width height size img num_frames f p)
    (fun p => my_pixels width height size p)
    (sendcounts width height size) (displs width height size)
    (malloc (width * height * 3))

/-! ## The sequential variant -/

/-- The buffer `gray` of the sequential program. -/
def seq_gray (width height : ℕ) (img : List ℕ) : List ℕ :=
  grayLoop (width * height) img (malloc (width * height * 3))

/-- One iteration of the per-pixel blend loop of the sequential variant. -/
def seqBlendStep (P : ℚ) (img gray frame : List ℕ) (i : ℕ) : List ℕ :=
  ((frame.set (i * 3 + 0) (blend P (img.getD (i * 3 + 0) 0) (gray.getD (i * 3 + 0) 0))).set
      (i * 3 + 1) (blend P (img.getD (i * 3 + 1) 0) (gray.getD (i * 3 + 1) 0))).set
    (i * 3 + 2) (blend P (img.getD (i * 3 + 2) 0) (gray.getD (i * 3 + 2) 0))

/-- The per-pixel blend loop `for (i = 0; i < n; i++)`. -/
def seqBlendLoop (n : ℕ) (P : ℚ) (img gray frame : List ℕ) : List ℕ :=
  (List.range n).foldl (seqBlendStep P img gray) frame

/-- The buffer `frames[f]` of the sequential program. -/
def seq_frame (width height : ℕ) (img : List ℕ) (num_frames f : ℕ) : List ℕ :=
  seqBlendLoop (width * height) (P_seq num_frames f) img (seq_gray width height img)
    (malloc (width * height * 3))

/-! ## The OpenMP variant

The iterations of each `parallel for` write disjoint cells and read only buffers
that the loop does not write, so the loops are run in index order. -/

/-- The buffer `gray` of the OpenMP program (`total_pixels = width * height`). -/
def omp_gray (width height : ℕ) (img : List ℕ) : List ℕ :=
  grayLoop (width * height) img (malloc (width * height * 3))

/-- The body of the `x` loop: the pixel at `idx = (y * width + x) * 3`. -/
def ompBlendStep (width : ℕ) (P : ℚ) (img gray : List ℕ) (y : ℕ) (result : List ℕ) (x : ℕ) :
    List ℕ :=
  let idx := (y * width + x) * 3
  ((result.set idx (blend P (img.getD idx 0) (gray.getD idx 0))).set
      (idx + 1) (blend P (img.getD (idx + 1) 0) (gray.getD (idx + 1) 0))).set
    (idx + 2) (blend P (img.getD (idx + 2) 0) (gray.getD (idx + 2) 0))

/-- The nested loops `for (y = 0; y < height; y++) for (x = 0; x < width; x++)`. -/
def ompBlendLoop (width height : ℕ) (P : ℚ) (img gray result : List ℕ) : List ℕ :=
  (List.range height).foldl
    (fun res y => (List.range width).foldl (ompBlendStep width P img gray y) res) result

/-- The buffer `frames[f]` of the OpenMP program. -/
def omp_frame (width height : ℕ) (img : List ℕ) (num_frames f : ℕ) : List ℕ :=
  ompBlendLoop width height (P_seq num_frames f) img (omp_gray width height img)
    (malloc (width * height * 3))

/-- Every cell of the buffer is a byte. -/
def IsBytes (buf : List ℕ) : Prop := ∀ b ∈ buf, b < 256

instance (buf : List ℕ) : Decidable (IsBytes buf) := by
  unfold IsBytes
  infer_instance

/-! ## Reference functions used to describe the loops -/

/-- Write `F` at the three cells of pixel `i`. -/
def writePixel (F : ℕ → ℕ) (buf : List ℕ) (i : ℕ) : List ℕ :=
  ((buf.set (i * 3 + 0) (F (i * 3 + 0))).set (i * 3 + 1) (F (i * 3 + 1))).set
    (i * 3 + 2) (F (i * 3 + 2))

/-- The gray byte at byte index `j` of an image: the gray value of the pixel that
contains `j`. -/
def grayAt (img : List ℕ) (j : ℕ) : ℕ :=
  gray_value (img.getD (j / 3 * 3 + 0) 0) (img.getD (j / 3 * 3 + 1) 0) (img.getD (j / 3 * 3 + 2) 0)

/-- The blended byte at byte index `j` of an image for weight `P`. -/
def frameAt (P : ℚ) (img : List ℕ) (j : ℕ) : ℕ :=
  blend P (img.getD j 0) (grayAt img j)

/-- A sample image of width 2 and height 3 (18 bytes). -/
def sampleImage : List ℕ :=
  [200, 100, 50, 0, 23, 13, 255, 255, 255, 10, 20, 30, 255, 0, 0, 7, 99, 180]

/-- The all-red image of width 4 and height 4. -/
def redImage : List ℕ := (List.replicate 16 [255, 0, 0]).flatten

/-! ## The formulas of the specification, in exact rational arithmetic -/

/-- The weighted sum `0.30*R + 0.59*G + 0.11*B` as the specification writes it,
evaluated exactly. -/
def spec_gray (r g b : ℕ) : ℚ := 30 / 100 * (r : ℚ) + 59 / 100 * (g : ℚ) + 11 / 100 * (b : ℚ)

/-- The weight `P(f) = 1 - f/(num_frames-1)` as the specification writes it, evaluated
exactly. -/
def spec_P (num_frames f : ℕ) : ℚ := 1 - (f : ℚ) / ((num_frames : ℚ) - 1)

/-- The blend `c*P(f) + g*(1 - P(f))` as the specification writes it, evaluated
exactly, before truncation. -/
def spec_blend_value (num_frames f c g : ℕ) : ℚ :=
  (c : ℚ) * spec_P num_frames f + (g : ℚ) * (1 - spec_P num_frames f)

/-- The truncated blend of the specification. -/
def spec_blend (num_frames f c g : ℕ) : ℕ := ⌊spec_blend_value num_frames f c g⌋.toNat

/-! ## Theorems: binary floating point -/

theorem bitLenAux_zero (fuel : ℕ) : bitLenAux fuel 0 = 0 := by
  cases fuel <;> simp [bitLenAux]

theorem bitLenAux_spec : ∀ (fuel n : ℕ), n ≤ fuel → n ≠ 0 →
    2 ^ bitLenAux fuel n ≤ 2 * n ∧ n < 2 ^ bitLenAux fuel n := by
  intro fuel
  induction fuel with
  | zero => intro n h1 h2; omega
  | succ k ih =>
    intro n h1 h2
    simp only [bitLenAux, if_neg h2]
    by_cases h3 : n / 2 = 0
    · rw [h3, bitLenAux_zero]
      have : n = 1 := by omega
      subst this
      norm_num
    · obtain ⟨i1, i2⟩ := ih (n / 2) (by omega) h3
      rw [pow_succ]
      constructor <;> omega

theorem bitLen_spec (n : ℕ) (h : n ≠ 0) : 2 ^ bitLen n ≤ 2 * n ∧ n < 2 ^ bitLen n :=
  bitLenAux_spec n n le_rfl h

theorem flog2_aux (a b : ℕ) (ha0 : a ≠ 0) (hb0 : b ≠ 0) :
    (2 : ℚ) ^ (if a * 2 ^ bitLen b < b * 2 ^ bitLen a
        then (bitLen a : ℤ) - (bitLen b : ℤ) - 1 else (bitLen a : ℤ) - (bitLen b : ℤ))
      ≤ (a : ℚ) / (b : ℚ) ∧
    (a : ℚ) / (b : ℚ) < (2 : ℚ) ^ ((if a * 2 ^ bitLen b < b * 2 ^ bitLen a
        then (bitLen a : ℤ) - (bitLen b : ℤ) - 1 else (bitLen a : ℤ) - (bitLen b : ℤ)) + 1) := by
  obtain ⟨ha1, ha2⟩ := bitLen_spec _ ha0
  obtain ⟨hb1, hb2⟩ := bitLen_spec _ hb0
  have hbq : (0 : ℚ) < (b : ℚ) := by exact_mod_cast Nat.pos_of_ne_zero hb0
  have ha1q : (2 : ℚ) ^ bitLen a ≤ 2 * a := by exact_mod_cast ha1
  have ha2q : (a : ℚ) < 2 ^ bitLen a := by exact_mod_cast ha2
  have hb1q : (2 : ℚ) ^ bitLen b ≤ 2 * b := by exact_mod_cast hb1
  have hb2q : (b : ℚ) < 2 ^ bitLen b := by exact_mod_cast hb2
  have hA : (0 : ℚ) < 2 ^ bitLen a := by positivity
  have hB : (0 : ℚ) < 2 ^ bitLen b := by positivity
  have hz : ∀ k : ℤ, (2 : ℚ) ^ ((bitLen a : ℤ) - (bitLen b : ℤ) + k)
      = 2 ^ bitLen a / 2 ^ bitLen b * 2 ^ k := by
    intro k
    rw [zpow_add₀ (two_ne_zero), zpow_sub₀ (two_ne_zero), zpow_natCast, zpow_natCast]
  have hz0 := hz 0
  have hz1 := hz 1
  have hzm := hz (-1)
  simp only [add_zero, zpow_zero, mul_one, zpow_one] at hz0 hz1
  have hm1 : (2 : ℚ) ^ (-1 : ℤ) = 1 / 2 := by norm_num
  rw [hm1] at hzm
  have haq : (0 : ℚ) ≤ (a : ℚ) := by positivity
  split_ifs with h
  · have hq : (a : ℚ) * 2 ^ bitLen b < b * 2 ^ bitLen a := by exact_mod_cast h
    have e1 : ((bitLen a : ℤ) - (bitLen b : ℤ) - 1)
        = (bitLen a : ℤ) - (bitLen b : ℤ) + (-1) := by ring
    have e2 : ((bitLen a : ℤ) - (bitLen b : ℤ) - 1 + 1)
        = (bitLen a : ℤ) - (bitLen b : ℤ) := by ring
    rw [e2, e1, hzm, hz0]
    constructor
    · rw [div_mul_eq_mul_div, div_le_div_iff₀ (by positivity) hbq]
      nlinarith
    · rw [div_lt_div_iff₀ hbq hB]
      linarith
  · have hq : ¬ (a : ℚ) * 2 ^ bitLen b < b * 2 ^ bitLen a := by exact_mod_cast h
    rw [hz1, hz0]
    constructor
    · rw [div_le_div_iff₀ hB hbq]
      linarith
    · rw [div_mul_eq_mul_div, div_lt_div_iff₀ hbq hB]
      nlinarith

theorem flog2_spec (x : ℚ) (hx : 0 < x) :
    (2 : ℚ) ^ flog2 x ≤ x ∧ x < (2 : ℚ) ^ (flog2 x + 1) := by
  have hnum : 0 < x.num := Rat.num_pos.mpr hx
  have hb0 : x.den ≠ 0 := x.den_nz
  have ha0 : x.num.toNat ≠ 0 := by omega
  have hcast : ((x.num.toNat : ℕ) : ℚ) = (x.num : ℚ) := by
    have h := Int.toNat_of_nonneg hnum.le
    exact_mod_cast congrArg (fun z : ℤ => (z : ℚ)) h
  have hxab : ((x.num.toNat : ℕ) : ℚ) / ((x.den : ℕ) : ℚ) = x := by
    rw [hcast]; exact Rat.num_div_den x
  have h := flog2_aux x.num.toNat x.den ha0 hb0
  rw [hxab] at h
  exact h

theorem rne_intCast (n : ℤ) : rne (n : ℚ) = n := by
  unfold rne
  simp

theorem rne_ge_floor (y : ℚ) : ⌊y⌋ ≤ rne y := by
  unfold rne
  simp only []
  split_ifs <;> omega

theorem rne_le_floor_succ (y : ℚ) : rne y ≤ ⌊y⌋ + 1 := by
  unfold rne
  simp only []
  split_ifs <;> omega

theorem rne_err (y : ℚ) : |(rne y : ℚ) - y| ≤ 1 / 2 := by
  have h0 := Int.floor_le y
  have h1 := Int.lt_floor_add_one y
  unfold rne
  simp only []
  split_ifs <;> rw [abs_le] <;> constructor <;> push_cast <;> linarith

theorem rne_mono {y1 y2 : ℚ} (h : y1 ≤ y2) : rne y1 ≤ rne y2 := by
  have hf : ⌊y1⌋ ≤ ⌊y2⌋ := Int.floor_mono h
  by_cases heq : ⌊y1⌋ = ⌊y2⌋
  · unfold rne
    simp only []
    rw [heq]
    split_ifs <;> first | omega | (exfalso; linarith)
  · have h1 := rne_le_floor_succ y1
    have h2 := rne_ge_floor y2
    omega

theorem fl_zero (p : ℕ) : fl p 0 = 0 := by
  simp [fl]

theorem fl_of_pos (p : ℕ) (x : ℚ) (hx : 0 < x) :
    fl p x = (rne (x * 2 ^ ((p : ℤ) - 1 - flog2 x)) : ℚ) / 2 ^ ((p : ℤ) - 1 - flog2 x) := by
  unfold fl flPos
  rw [if_neg hx.ne.symm, if_pos hx]

/-- The scaled significand of a positive `x` lies in `[2^(p-1), 2^p)`. -/
theorem scaled_bounds (p : ℕ) (hp : 1 ≤ p) (x : ℚ) (hx : 0 < x) :
    (((2 : ℤ) ^ (p - 1) : ℤ) : ℚ) ≤ x * 2 ^ ((p : ℤ) - 1 - flog2 x) ∧
    x * 2 ^ ((p : ℤ) - 1 - flog2 x) < (((2 : ℤ) ^ p : ℤ) : ℚ) := by
  obtain ⟨h1, h2⟩ := flog2_spec x hx
  have hs : (0 : ℚ) < 2 ^ ((p : ℤ) - 1 - flog2 x) := by positivity
  have e1 : (((2 : ℤ) ^ (p - 1) : ℤ) : ℚ) = 2 ^ flog2 x * 2 ^ ((p : ℤ) - 1 - flog2 x) := by
    rw [← zpow_add₀ (two_ne_zero)]
    have : flog2 x + ((p : ℤ) - 1 - flog2 x) = ((p - 1 : ℕ) : ℤ) := by omega
    rw [this, zpow_natCast]
    push_cast
    rfl
  have e2 : (((2 : ℤ) ^ p : ℤ) : ℚ) = 2 ^ (flog2 x + 1) * 2 ^ ((p : ℤ) - 1 - flog2 x) := by
    rw [← zpow_add₀ (two_ne_zero)]
    have : flog2 x + 1 + ((p : ℤ) - 1 - flog2 x) = ((p : ℕ) : ℤ) := by omega
    rw [this, zpow_natCast]
    push_cast
    rfl
  rw [e1, e2]
  constructor
  · exact mul_le_mul_of_nonneg_right h1 hs.le
  · exact mul_lt_mul_of_pos_right h2 hs

theorem rne_scaled_bounds (p : ℕ) (hp : 1 ≤ p) (x : ℚ) (hx : 0 < x) :
    (2 : ℤ) ^ (p - 1) ≤ rne (x * 2 ^ ((p : ℤ) - 1 - flog2 x)) ∧
    rne (x * 2 ^ ((p : ℤ) - 1 - flog2 x)) ≤ (2 : ℤ) ^ p := by
  obtain ⟨h1, h2⟩ := scaled_bounds p hp x hx
  constructor
  · have := rne_mono h1
    rwa [rne_intCast] at this
  · have := rne_mono h2.le
    rwa [rne_intCast] at this

/-- A rounded positive value stays in the closed binade of its argument. -/
theorem fl_bounds (p : ℕ) (hp : 1 ≤ p) (x : ℚ) (hx : 0 < x) :
    (2 : ℚ) ^ flog2 x ≤ fl p x ∧ fl p x ≤ (2 : ℚ) ^ (flog2 x + 1) := by
  obtain ⟨h1, h2⟩ := rne_scaled_bounds p hp x hx
  have hs : (0 : ℚ) < 2 ^ ((p : ℤ) - 1 - flog2 x) := by positivity
  have q1 : (((2 : ℤ) ^ (p - 1) : ℤ) : ℚ) ≤ (rne (x * 2 ^ ((p : ℤ) - 1 - flog2 x)) : ℚ) := by
    exact_mod_cast h1
  have q2 : (rne (x * 2 ^ ((p : ℤ) - 1 - flog2 x)) : ℚ) ≤ (((2 : ℤ) ^ p : ℤ) : ℚ) := by
    exact_mod_cast h2
  have e1 : (((2 : ℤ) ^ (p - 1) : ℤ) : ℚ) = 2 ^ flog2 x * 2 ^ ((p : ℤ) - 1 - flog2 x) := by
    rw [← zpow_add₀ (two_ne_zero)]
    have : flog2 x + ((p : ℤ) - 1 - flog2 x) = ((p - 1 : ℕ) : ℤ) := by omega
    rw [this, zpow_natCast]
    push_cast
    rfl
  have e2 : (((2 : ℤ) ^ p : ℤ) : ℚ) = 2 ^ (flog2 x + 1) * 2 ^ ((p : ℤ) - 1 - flog2 x) := by
    rw [← zpow_add₀ (two_ne_zero)]
    have : flog2 x + 1 + ((p : ℤ) - 1 - flog2 x) = ((p : ℕ) : ℤ) := by omega
    rw [this, zpow_natCast]
    push_cast
    rfl
  rw [fl_of_pos p x hx]
  constructor
  · rw [le_div_iff₀ hs, ← e1]
    exact q1
  · rw [div_le_iff₀ hs, ← e2]
    exact q2

theorem fl_nonneg (p : ℕ) (hp : 1 ≤ p) (x : ℚ) (hx : 0 ≤ x) : 0 ≤ fl p x := by
  rcases hx.eq_or_lt with h | h
  · rw [← h, fl_zero]
  · have := (fl_bounds p hp x h).1
    have h2 : (0 : ℚ) < 2 ^ flog2 x := by positivity
    linarith

theorem fl_pos (p : ℕ) (hp : 1 ≤ p) (x : ℚ) (hx : 0 < x) : 0 < fl p x := by
  have := (fl_bounds p hp x hx).1
  have h2 : (0 : ℚ) < 2 ^ flog2 x := by positivity
  linarith

/-- Rounding error of a positive value: at most half a unit in the last place. -/
theorem fl_err (p : ℕ) (x : ℚ) (hx : 0 < x) :
    |fl p x - x| ≤ (2 : ℚ) ^ (flog2 x - (p : ℤ)) := by
  have hs : (0 : ℚ) < 2 ^ ((p : ℤ) - 1 - flog2 x) := by positivity
  have h := rne_err (x * 2 ^ ((p : ℤ) - 1 - flog2 x))
  rw [fl_of_pos p x hx]
  have e : (rne (x * 2 ^ ((p : ℤ) - 1 - flog2 x)) : ℚ) / 2 ^ ((p : ℤ) - 1 - flog2 x) - x
      = ((rne (x * 2 ^ ((p : ℤ) - 1 - flog2 x)) : ℚ) - x * 2 ^ ((p : ℤ) - 1 - flog2 x))
          / 2 ^ ((p : ℤ) - 1 - flog2 x) := by
    rw [sub_div, mul_div_cancel_right₀ _ hs.ne.symm]
  rw [e, abs_div, abs_of_pos hs, div_le_iff₀ hs]
  have e3 : (2 : ℚ) ^ (flog2 x - (p : ℤ)) * 2 ^ ((p : ℤ) - 1 - flog2 x) = 1 / 2 := by
    rw [← zpow_add₀ (two_ne_zero)]
    have : flog2 x - (p : ℤ) + ((p : ℤ) - 1 - flog2 x) = -1 := by ring
    rw [this]
    norm_num
  rw [e3]
  exact h

/-- A value with at most `p` significant bits is not changed by rounding. -/
theorem fl_repr (p : ℕ) (m : ℕ) (k : ℤ) (hm : m < 2 ^ p) :
    fl p ((m : ℚ) * 2 ^ k) = (m : ℚ) * 2 ^ k := by
  rcases Nat.eq_zero_or_pos m with h0 | hpos
  · subst h0
    simp [fl_zero]
  have hmq : (0 : ℚ) < (m : ℚ) := by exact_mod_cast hpos
  have hk : (0 : ℚ) < 2 ^ k := by positivity
  have hx : (0 : ℚ) < (m : ℚ) * 2 ^ k := by positivity
  obtain ⟨h1, h2⟩ := flog2_spec _ hx
  have hm2 : (m : ℚ) < 2 ^ p := by exact_mod_cast hm
  have hlt : (2 : ℚ) ^ (flog2 ((m : ℚ) * 2 ^ k)) < 2 ^ ((p : ℤ) + k) := by
    calc (2 : ℚ) ^ (flog2 ((m : ℚ) * 2 ^ k)) ≤ (m : ℚ) * 2 ^ k := h1
      _ < 2 ^ p * 2 ^ k := mul_lt_mul_of_pos_right hm2 hk
      _ = 2 ^ ((p : ℤ) + k) := by rw [zpow_add₀ (two_ne_zero), zpow_natCast]
  have he : flog2 ((m : ℚ) * 2 ^ k) < (p : ℤ) + k :=
    (zpow_lt_zpow_iff_right₀ (by norm_num)).mp hlt
  rw [fl_of_pos p _ hx]
  generalize flog2 ((m : ℚ) * 2 ^ k) = e at *
  obtain ⟨t, ht⟩ : ∃ t : ℕ, k + ((p : ℤ) - 1 - e) = (t : ℤ) :=
    ⟨(k + ((p : ℤ) - 1 - e)).toNat, by omega⟩
  have hs : (0 : ℚ) < 2 ^ ((p : ℤ) - 1 - e) := by positivity
  have e1 : (m : ℚ) * 2 ^ k * 2 ^ ((p : ℤ) - 1 - e) = (((m * 2 ^ t : ℕ) : ℤ) : ℚ) := by
    rw [mul_assoc, ← zpow_add₀ (two_ne_zero), ht, zpow_natCast]
    push_cast
    ring
  rw [e1, rne_intCast, ← e1, mul_div_cancel_right₀ _ hs.ne.symm]

theorem fl_natCast (p : ℕ) (m : ℕ) (hm : m < 2 ^ p) : fl p (m : ℚ) = (m : ℚ) := by
  have h := fl_repr p m 0 hm
  simpa using h

theorem flog2_mono {x y : ℚ} (hx : 0 < x) (hxy : x ≤ y) : flog2 x ≤ flog2 y := by
  have h1 := (flog2_spec x hx).1
  have h2 := (flog2_spec y (lt_of_lt_of_le hx hxy)).2
  have h3 : (2 : ℚ) ^ flog2 x < 2 ^ (flog2 y + 1) := by linarith
  have h4 := (zpow_lt_zpow_iff_right₀ (by norm_num : (1 : ℚ) < 2)).mp h3
  omega

/-- Rounding is monotone. -/
theorem fl_mono (p : ℕ) (hp : 1 ≤ p) {x y : ℚ} (hx : 0 ≤ x) (hxy : x ≤ y) :
    fl p x ≤ fl p y := by
  rcases hx.eq_or_lt with h | h
  · rw [← h, fl_zero]
    exact fl_nonneg p hp y (by linarith)
  have hy : 0 < y := by linarith
  have hle := flog2_mono h hxy
  rcases hle.eq_or_lt with he | hlt
  · rw [fl_of_pos p x h, fl_of_pos p y hy, he]
    have hs : (0 : ℚ) < 2 ^ ((p : ℤ) - 1 - flog2 y) := by positivity
    have hr : rne (x * 2 ^ ((p : ℤ) - 1 - flog2 y)) ≤ rne (y * 2 ^ ((p : ℤ) - 1 - flog2 y)) :=
      rne_mono (mul_le_mul_of_nonneg_right hxy hs.le)
    have hq : (rne (x * 2 ^ ((p : ℤ) - 1 - flog2 y)) : ℚ)
        ≤ (rne (y * 2 ^ ((p : ℤ) - 1 - flog2 y)) : ℚ) := by exact_mod_cast hr
    exact div_le_div_of_nonneg_right hq hs.le
  · calc fl p x ≤ (2 : ℚ) ^ (flog2 x + 1) := (fl_bounds p hp x h).2
      _ ≤ (2 : ℚ) ^ flog2 y := zpow_le_zpow_right₀ (by norm_num) (by omega)
      _ ≤ fl p y := (fl_bounds p hp y hy).1

/-- Absolute rounding error below `2^E`. -/
theorem fl_abs_err (p : ℕ) (E : ℤ) (x : ℚ) (hx : 0 ≤ x) (hxE : x < 2 ^ E) :
    |fl p x - x| ≤ (2 : ℚ) ^ (E - 1 - (p : ℤ)) := by
  rcases hx.eq_or_lt with h | h
  · rw [← h, fl_zero]
    simp only [sub_zero, abs_zero]
    positivity
  have h1 := (flog2_spec x h).1
  have h3 : (2 : ℚ) ^ flog2 x < 2 ^ E := by linarith
  have h4 := (zpow_lt_zpow_iff_right₀ (by norm_num : (1 : ℚ) < 2)).mp h3
  calc |fl p x - x| ≤ (2 : ℚ) ^ (flog2 x - (p : ℤ)) := fl_err p x h
    _ ≤ (2 : ℚ) ^ (E - 1 - (p : ℤ)) := zpow_le_zpow_right₀ (by norm_num) (by omega)

/-! ## Theorems: buffers and loops -/

theorem getD_set (l : List ℕ) (i j a : ℕ) :
    (l.set i a).getD j 0 = if i = j ∧ i < l.length then a else l.getD j 0 := by
  simp only [List.getD_eq_getElem?_getD, List.getElem?_set]
  by_cases h : i = j
  · subst h
    by_cases h2 : i < l.length
    · simp [h2]
    · simp [h2, List.getElem?_eq_none (not_lt.mp h2)]
  · simp [h]

theorem foldl_range_succ {β : Type} (f : β → ℕ → β) (b : β) (k : ℕ) :
    (List.range (k + 1)).foldl f b = f ((List.range k).foldl f b) k := by
  rw [List.range_succ, List.foldl_append]
  rfl

theorem getD_of_lt (l : List ℕ) (j : ℕ) (h : j < l.length) : l[j]? = some (l.getD j 0) := by
  rw [List.getD_eq_getElem?_getD, List.getElem?_eq_getElem h]
  rfl

theorem eq_map_range (l : List ℕ) (n : ℕ) (F : ℕ → ℕ) (hl : l.length = n)
    (h : ∀ j < n, l.getD j 0 = F j) : l = (List.range n).map F := by
  apply List.ext_getElem?
  intro j
  by_cases hj : j < n
  · rw [List.getElem?_map, List.getElem?_range hj, getD_of_lt l j (by omega), h j hj]
    rfl
  · rw [List.getElem?_eq_none (by omega), List.getElem?_eq_none (by simp; omega)]

theorem getD_map_range (n : ℕ) (F : ℕ → ℕ) (j : ℕ) :
    ((List.range n).map F).getD j 0 = if j < n then F j else 0 := by
  rw [List.getD_eq_getElem?_getD, List.getElem?_map]
  by_cases hj : j < n
  · rw [List.getElem?_range hj, if_pos hj]
    rfl
  · rw [List.getElem?_eq_none (by simp; omega), if_neg hj]
    rfl

theorem writePixel_length (F : ℕ → ℕ) (buf : List ℕ) (i : ℕ) :
    (writePixel F buf i).length = buf.length := by
  simp [writePixel]

theorem writePixel_getD (F : ℕ → ℕ) (buf : List ℕ) (i j : ℕ) (h : i * 3 + 2 < buf.length) :
    (writePixel F buf i).getD j 0
      = if i * 3 ≤ j ∧ j < i * 3 + 3 then F j else buf.getD j 0 := by
  unfold writePixel
  simp only [getD_set, List.length_set, Nat.add_zero]
  by_cases h2 : i * 3 + 2 = j
  · subst h2
    rw [if_pos ⟨rfl, h⟩, if_pos ⟨by omega, by omega⟩]
  · rw [if_neg (fun hh => h2 hh.1)]
    by_cases h1 : i * 3 + 1 = j
    · subst h1
      rw [if_pos ⟨rfl, by omega⟩, if_pos ⟨by omega, by omega⟩]
    · rw [if_neg (fun hh => h1 hh.1)]
      by_cases h0 : i * 3 = j
      · subst h0
        rw [if_pos ⟨rfl, by omega⟩, if_pos ⟨by omega, by omega⟩]
      · rw [if_neg (fun hh => h0 hh.1), if_neg (fun hh => by omega)]

/-- A loop that writes the pixels `o, o+1, ..., o+m-1`. -/
theorem pixelLoop_spec (F : ℕ → ℕ) (o : ℕ) : ∀ (m : ℕ) (buf : List ℕ),
    (o + m) * 3 ≤ buf.length →
    ((List.range m).foldl (fun b x => writePixel F b (o + x)) buf).length = buf.length ∧
    ∀ j, ((List.range m).foldl (fun b x => writePixel F b (o + x)) buf).getD j 0
      = if o * 3 ≤ j ∧ j < (o + m) * 3 then F j else buf.getD j 0 := by
  intro m
  induction m with
  | zero =>
    intro buf _
    refine ⟨rfl, fun j => ?_⟩
    rw [if_neg (fun hh => by omega)]
    rfl
  | succ k ih =>
    intro buf hlen
    obtain ⟨h1, h2⟩ := ih buf (by omega)
    rw [foldl_range_succ]
    refine ⟨by rw [writePixel_length, h1], fun j => ?_⟩
    rw [writePixel_getD _ _ _ _ (by omega), h2 j]
    by_cases hj : (o + k) * 3 ≤ j ∧ j < (o + k) * 3 + 3
    · rw [if_pos hj, if_pos ⟨by omega, by omega⟩]
    · rw [if_neg hj]
      by_cases hj2 : o * 3 ≤ j ∧ j < (o + k) * 3
      · rw [if_pos hj2, if_pos ⟨by omega, by omega⟩]
      · rw [if_neg hj2, if_neg (fun hh => by omega)]

theorem pixelLoop_zero (F : ℕ → ℕ) (m : ℕ) (buf : List ℕ) (hlen : buf.length = m * 3) :
    (List.range m).foldl (writePixel F) buf = (List.range (m * 3)).map F := by
  have e : (fun b x => writePixel F b (0 + x)) = writePixel F := by
    funext b x
    rw [Nat.zero_add]
  obtain ⟨h1, h2⟩ := pixelLoop_spec F 0 m buf (by omega)
  rw [e] at h1 h2
  apply eq_map_range _ _ _ (by omega)
  intro j hj
  rw [h2 j, if_pos ⟨by omega, by omega⟩]

theorem malloc_length (n : ℕ) : (malloc n).length = n := by
  simp [malloc]

theorem grayAt_pixel (img : List ℕ) (i t : ℕ) (ht : t < 3) :
    grayAt img (i * 3 + t)
      = gray_value (img.getD (i * 3 + 0) 0) (img.getD (i * 3 + 1) 0) (img.getD (i * 3 + 2) 0) := by
  unfold grayAt
  have h : (i * 3 + t) / 3 * 3 = i * 3 := by omega
  rw [h]

theorem grayStep_eq (img gray : List ℕ) (i : ℕ) :
    grayStep img gray i = writePixel (grayAt img) gray i := by
  unfold grayStep writePixel
  simp only []
  rw [grayAt_pixel img i 0 (by omega), grayAt_pixel img i 1 (by omega),
    grayAt_pixel img i 2 (by omega)]

/-- The grayscale loop over `n` pixels fills the buffer with the gray bytes. -/
theorem grayLoop_spec (n : ℕ) (img gray : List ℕ) (h : gray.length = n * 3) :
    grayLoop n img gray = (List.range (n * 3)).map (grayAt img) := by
  unfold grayLoop
  have e : grayStep img = writePixel (grayAt img) :=
    funext fun g => funext fun i => grayStep_eq img g i
  rw [e]
  exact pixelLoop_zero _ _ _ h

/-- The per-pixel blend loop of the sequential variant. -/
theorem seqBlendLoop_spec (n : ℕ) (P : ℚ) (img gray frame : List ℕ) (h : frame.length = n * 3) :
    seqBlendLoop n P img gray frame
      = (List.range (n * 3)).map (fun j => blend P (img.getD j 0) (gray.getD j 0)) := by
  unfold seqBlendLoop
  have e : seqBlendStep P img gray
      = writePixel (fun j => blend P (img.getD j 0) (gray.getD j 0)) := rfl
  rw [e]
  exact pixelLoop_zero _ _ _ h

theorem setLoop_spec (F : ℕ → ℕ) : ∀ (m : ℕ) (buf : List ℕ), m ≤ buf.length →
    ((List.range m).foldl (fun b i => b.set i (F i)) buf).length = buf.length ∧
    ∀ j, ((List.range m).foldl (fun b i => b.set i (F i)) buf).getD j 0
      = if j < m then F j else buf.getD j 0 := by
  intro m
  induction m with
  | zero =>
    intro buf _
    exact ⟨rfl, fun j => by rw [if_neg (by omega)]; rfl⟩
  | succ k ih =>
    intro buf hlen
    obtain ⟨h1, h2⟩ := ih buf (by omega)
    rw [foldl_range_succ]
    refine ⟨by rw [List.length_set, h1], fun j => ?_⟩
    rw [getD_set, h2 j, h1]
    by_cases hj : k = j
    · subst hj
      rw [if_pos ⟨rfl, by omega⟩, if_pos (by omega)]
    · rw [if_neg (fun hh => hj hh.1)]
      by_cases hj2 : j < k
      · rw [if_pos hj2, if_pos (by omega)]
      · rw [if_neg hj2, if_neg (by omega)]

/-- The per-byte blend loop of the MPI variant. -/
theorem blendLoop_spec (n : ℕ) (P : ℚ) (img gray frame : List ℕ) (h : frame.length = n) :
    blendLoop n P img gray frame
      = (List.range n).map (fun j => blend P (img.getD j 0) (gray.getD j 0)) := by
  unfold blendLoop
  have e : blendStep P img gray
      = fun b i => b.set i (blend P (img.getD i 0) (gray.getD i 0)) := rfl
  rw [e]
  have hs := setLoop_spec (fun j => blend P (img.getD j 0) (gray.getD j 0)) n frame (by omega)
  beta_reduce at hs
  obtain ⟨h1, h2⟩ := hs
  apply eq_map_range _ _ _ (by omega)
  intro j hj
  rw [h2 j, if_pos hj]

theorem ompRows_spec (width : ℕ) (F : ℕ → ℕ) : ∀ (k : ℕ) (buf : List ℕ),
    k * width * 3 ≤ buf.length →
    ((List.range k).foldl
      (fun res y => (List.range width).foldl (fun b x => writePixel F b (y * width + x)) res)
      buf).length = buf.length ∧
    ∀ j, ((List.range k).foldl
      (fun res y => (List.range width).foldl (fun b x => writePixel F b (y * width + x)) res)
      buf).getD j 0 = if j < k * width * 3 then F j else buf.getD j 0 := by
  intro k
  induction k with
  | zero =>
    intro buf _
    exact ⟨rfl, fun j => by rw [if_neg (by omega)]; rfl⟩
  | succ k ih =>
    intro buf hlen
    have hk : (k + 1) * width * 3 = k * width * 3 + width * 3 := by ring
    have hk2 : (k * width + width) * 3 = k * width * 3 + width * 3 := by ring
    obtain ⟨h1, h2⟩ := ih buf (by omega)
    rw [foldl_range_succ]
    obtain ⟨g1, g2⟩ := pixelLoop_spec F (k * width) width
      ((List.range k).foldl
        (fun res y => (List.range width).foldl (fun b x => writePixel F b (y * width + x)) res)
        buf) (by omega)
    refine ⟨by rw [g1, h1], fun j => ?_⟩
    rw [g2 j, h2 j]
    by_cases hj : k * width * 3 ≤ j ∧ j < (k * width + width) * 3
    · rw [if_pos hj, if_pos (by omega)]
    · rw [if_neg hj]
      by_cases hj2 : j < k * width * 3
      · rw [if_pos hj2, if_pos (by omega)]
      · rw [if_neg hj2, if_neg (by omega)]

/-- The nested blend loops of the OpenMP variant. -/
theorem ompBlendLoop_spec (width height : ℕ) (P : ℚ) (img gray result : List ℕ)
    (h : result.length = width * height * 3) :
    ompBlendLoop width height P img gray result
      = (List.range (width * height * 3)).map
          (fun j => blend P (img.getD j 0) (gray.getD j 0)) := by
  unfold ompBlendLoop
  have e : ∀ y, ompBlendStep width P img gray y
      = fun b x => writePixel (fun j => blend P (img.getD j 0) (gray.getD j 0)) b
          (y * width + x) := fun y => rfl
  simp only [e]
  have hc : height * width * 3 = width * height * 3 := by ring
  obtain ⟨h1, h2⟩ := ompRows_spec width (fun j => blend P (img.getD j 0) (gray.getD j 0))
    height result (by omega)
  apply eq_map_range _ _ _ (by omega)
  intro j hj
  rw [h2 j, if_pos (by omega)]

/-! ## Theorems: row partition -/

theorem start_row_succ (H N k : ℕ) :
    start_row H N (k + 1) = start_row H N k + my_rows H N k := by
  unfold start_row my_rows
  have e : (k + 1) * rows_per_proc H N = k * rows_per_proc H N + rows_per_proc H N := by ring
  rw [e]
  split_ifs <;> omega

theorem start_row_zero (H N : ℕ) : start_row H N 0 = 0 := by
  unfold start_row
  split_ifs <;> omega

theorem my_rows_sum (H N : ℕ) : ∀ k, ((List.range k).map (my_rows H N)).sum = start_row H N k := by
  intro k
  induction k with
  | zero => rw [start_row_zero]; rfl
  | succ k ih =>
    rw [List.range_succ, List.map_append, List.sum_append, ih, start_row_succ]
    simp

theorem start_row_size (H N : ℕ) (hN : 1 ≤ N) : start_row H N N = H := by
  unfold start_row rows_per_proc extra
  have h1 : H % N < N := Nat.mod_lt _ (by omega)
  have h2 := Nat.div_add_mod H N
  rw [if_neg (by omega)]
  exact h2

theorem start_row_mono (H N : ℕ) {p q : ℕ} (h : p ≤ q) : start_row H N p ≤ start_row H N q := by
  induction q with
  | zero =>
    have : p = 0 := by omega
    subst this
    exact le_rfl
  | succ k ih =>
    rcases Nat.eq_or_lt_of_le h with h1 | h1
    · rw [h1]
    · have := ih (by omega)
      rw [start_row_succ]
      omega

theorem start_row_le (H N p : ℕ) (hN : 1 ≤ N) (hp : p ≤ N) : start_row H N p ≤ H := by
  have := start_row_mono H N hp
  rwa [start_row_size H N hN] at this

theorem countsLoop_inv (W H N : ℕ) : ∀ k, k ≤ N →
    ((List.range k).foldl (countsStep W H N)
        { offset := 0, sendcounts := malloc N, displs := malloc N }).offset
      = start_row H N k * W * 3 ∧
    ((List.range k).foldl (countsStep W H N)
        { offset := 0, sendcounts := malloc N, displs := malloc N }).sendcounts.length = N ∧
    ((List.range k).foldl (countsStep W H N)
        { offset := 0, sendcounts := malloc N, displs := malloc N }).displs.length = N ∧
    (∀ p < k, ((List.range k).foldl (countsStep W H N)
        { offset := 0, sendcounts := malloc N, displs := malloc N }).sendcounts.getD p 0
      = my_pixels W H N p) ∧
    (∀ p < k, ((List.range k).foldl (countsStep W H N)
        { offset := 0, sendcounts := malloc N, displs := malloc N }).displs.getD p 0
      = start_row H N p * W * 3) := by
  intro k
  induction k with
  | zero =>
    intro _
    refine ⟨?_, malloc_length N, malloc_length N, fun p hp => by omega, fun p hp => by omega⟩
    rw [start_row_zero]
    simp
  | succ k ih =>
    intro hk
    obtain ⟨i1, i2, i3, i4, i5⟩ := ih (by omega)
    rw [foldl_range_succ]
    generalize (List.range k).foldl (countsStep W H N)
      { offset := 0, sendcounts := malloc N, displs := malloc N } = st at *
    have hsc : (countsStep W H N st k).sendcounts
        = st.sendcounts.set k (my_pixels W H N k) := rfl
    have hds : (countsStep W H N st k).displs = st.displs.set k st.offset := rfl
    have hof : (countsStep W H N st k).offset
        = st.offset + (st.sendcounts.set k (my_pixels W H N k)).getD k 0 := rfl
    refine ⟨?_, ?_, ?_, ?_, ?_⟩
    · rw [hof, getD_set, if_pos ⟨rfl, by omega⟩, i1, start_row_succ]
      unfold my_pixels
      ring
    · rw [hsc, List.length_set, i2]
    · rw [hds, List.length_set, i3]
    · intro p hp
      rw [hsc, getD_set]
      by_cases hpk : k = p
      · subst hpk
        rw [if_pos ⟨rfl, by omega⟩]
      · rw [if_neg (fun hh => hpk hh.1)]
        exact i4 p (by omega)
    · intro p hp
      rw [hds, getD_set]
      by_cases hpk : k = p
      · subst hpk
        rw [if_pos ⟨rfl, by omega⟩, i1]
      · rw [if_neg (fun hh => hpk hh.1)]
        exact i5 p (by omega)

theorem sendcounts_length (W H N : ℕ) : (sendcounts W H N).length = N :=
  (countsLoop_inv W H N N le_rfl).2.1

theorem displs_length (W H N : ℕ) : (displs W H N).length = N :=
  (countsLoop_inv W H N N le_rfl).2.2.1

theorem sendcounts_getD (W H N p : ℕ) (hp : p < N) :
    (sendcounts W H N).getD p 0 = my_pixels W H N p :=
  (countsLoop_inv W H N N le_rfl).2.2.2.1 p hp

theorem displs_getD (W H N p : ℕ) (hp : p < N) :
    (displs W H N).getD p 0 = start_row H N p * W * 3 :=
  (countsLoop_inv W H N N le_rfl).2.2.2.2 p hp

/-! ## Theorems: scatter, local computation, gather -/

theorem writeAt_length : ∀ (src buf : List ℕ) (off : ℕ), (writeAt buf off src).length = buf.length := by
  intro src
  induction src with
  | nil => intro buf off; rfl
  | cons x xs ih =>
    intro buf off
    rw [writeAt, ih, List.length_set]

theorem writeAt_getD : ∀ (src buf : List ℕ) (off : ℕ), off + src.length ≤ buf.length →
    ∀ j, (writeAt buf off src).getD j 0
      = if off ≤ j ∧ j < off + src.length then src.getD (j - off) 0 else buf.getD j 0 := by
  intro src
  induction src with
  | nil =>
    intro buf off _ j
    rw [writeAt, if_neg (fun hh => by simp at hh; omega)]
  | cons x xs ih =>
    intro buf off hlen j
    rw [List.length_cons] at hlen
    rw [writeAt, ih (buf.set off x) (off + 1) (by rw [List.length_set]; omega) j, getD_set,
      List.length_cons]
    by_cases h1 : off + 1 ≤ j ∧ j < off + 1 + xs.length
    · rw [if_pos h1, if_pos ⟨by omega, by omega⟩]
      have e : j - off = (j - (off + 1)) + 1 := by omega
      rw [e, List.getD_cons_succ]
    · rw [if_neg h1]
      by_cases h2 : off = j
      · subst h2
        rw [if_pos ⟨rfl, by omega⟩, if_pos ⟨by omega, by omega⟩, Nat.sub_self]
        rfl
      · rw [if_neg (fun hh => h2 hh.1), if_neg (fun hh => by omega)]

theorem getD_of_le (l : List ℕ) (j : ℕ) (h : l.length ≤ j) : l.getD j 0 = 0 := by
  rw [List.getD_eq_getElem?_getD, List.getElem?_eq_none h]
  rfl

theorem getD_take_drop (l : List ℕ) (d c j : ℕ) :
    ((l.drop d).take c).getD j 0 = if j < c then l.getD (d + j) 0 else 0 := by
  simp only [List.getD_eq_getElem?_getD, List.getElem?_take, List.getElem?_drop]
  split_ifs <;> rfl

theorem getD_take (l : List ℕ) (c j : ℕ) :
    (l.take c).getD j 0 = if j < c then l.getD j 0 else 0 := by
  simp only [List.getD_eq_getElem?_getD, List.getElem?_take]
  split_ifs <;> rfl

theorem malloc_getD (n j : ℕ) : (malloc n).getD j 0 = 0 := by
  unfold malloc
  rw [List.getD_eq_getElem?_getD, List.getElem?_replicate]
  split_ifs <;> rfl

theorem local_img_length (W H N : ℕ) (img : List ℕ) (p : ℕ) :
    (local_img W H N img p).length = my_pixels W H N p := by
  unfold local_img
  rw [writeAt_length, malloc_length]

/-- After the scatter, cell `j` of `local_img` holds byte `start_row * width * 3 + j`
of the image. -/
theorem local_img_getD (W H N : ℕ) (img : List ℕ) (p : ℕ) (hp : p < N) (j : ℕ) :
    (local_img W H N img p).getD j 0
      = if j < my_pixels W H N p then img.getD (start_row H N p * W * 3 + j) 0 else 0 := by
  unfold local_img scatterv
  rw [sendcounts_getD W H N p hp, displs_getD W H N p hp]
  have hl : (((img.drop (start_row H N p * W * 3)).take (my_pixels W H N p)).take
      (my_pixels W H N p)).length ≤ my_pixels W H N p := by
    rw [List.length_take]
    omega
  rw [writeAt_getD _ _ _ (by rw [malloc_length]; omega) j]
  by_cases h1 : j < (((img.drop (start_row H N p * W * 3)).take (my_pixels W H N p)).take
      (my_pixels W H N p)).length
  · rw [if_pos ⟨by omega, by omega⟩, Nat.sub_zero, getD_take, getD_take_drop,
      if_pos (by omega), if_pos (by omega)]
  · rw [if_neg (fun hh => by omega), malloc_getD]
    have h2 := getD_of_le _ j (not_lt.mp h1)
    rw [getD_take, getD_take_drop] at h2
    by_cases h3 : j < my_pixels W H N p
    · rw [if_pos h3, if_pos h3] at h2
      rw [if_pos h3, h2]
    · rw [if_neg h3]

theorem local_gray_eq (W H N : ℕ) (img : List ℕ) (p : ℕ) :
    local_gray W H N img p
      = (List.range (my_pixels W H N p)).map (grayAt (local_img W H N img p)) := by
  unfold local_gray
  rw [grayLoop_spec _ _ _ (by rw [malloc_length]; unfold my_pixels; ring)]
  have e : my_rows H N p * W * 3 = my_pixels W H N p := rfl
  rw [e]

theorem local_frame_eq (W H N : ℕ) (img : List ℕ) (n f p : ℕ) :
    local_frame W H N img n f p
      = (List.range (my_pixels W H N p)).map
          (fun j => blend (P_mpi n f) ((local_img W H N img p).getD j 0)
            ((local_gray W H N img p).getD j 0)) := by
  unfold local_frame
  rw [blendLoop_spec _ _ _ _ _ (by rw [malloc_length]; rfl)]
  rfl

theorem local_frame_length (W H N : ℕ) (img : List ℕ) (n f p : ℕ) :
    (local_frame W H N img n f p).length = my_pixels W H N p := by
  rw [local_frame_eq]
  simp

/-- Cell `j` of `local_frames[f]` is the blended byte of the image at the global
index `start_row * width * 3 + j`. -/
theorem local_frame_getD (W H N : ℕ) (img : List ℕ) (n f p : ℕ) (hp : p < N) (j : ℕ)
    (hj : j < my_pixels W H N p) :
    (local_frame W H N img n f p).getD j 0
      = frameAt (P_mpi n f) img (start_row H N p * W * 3 + j) := by
  rw [local_frame_eq, getD_map_range, if_pos hj, local_gray_eq, getD_map_range, if_pos hj,
    local_img_getD W H N img p hp, if_pos hj]
  unfold frameAt
  congr 1
  unfold grayAt
  have hm : my_pixels W H N p = my_rows H N p * W * 3 := rfl
  have e0 : start_row H N p * W * 3 + (j / 3 * 3 + 0)
      = (start_row H N p * W * 3 + j) / 3 * 3 + 0 := by omega
  have e1 : start_row H N p * W * 3 + (j / 3 * 3 + 1)
      = (start_row H N p * W * 3 + j) / 3 * 3 + 1 := by omega
  have e2 : start_row H N p * W * 3 + (j / 3 * 3 + 2)
      = (start_row H N p * W * 3 + j) / 3 * 3 + 2 := by omega
  rw [local_img_getD W H N img p hp, local_img_getD W H N img p hp,
    local_img_getD W H N img p hp, if_pos (by omega), if_pos (by omega), if_pos (by omega),
    e0, e1, e2]

theorem gather_inv (W H N : ℕ) (img : List ℕ) (n f : ℕ) (hN : 1 ≤ N) : ∀ k, k ≤ N →
    ((List.range k).foldl
      (fun buf p => writeAt buf ((displs W H N).getD p 0)
        (((local_frame W H N img n f p).take (my_pixels W H N p)).take
          ((sendcounts W H N).getD p 0)))
      (malloc (W * H * 3))).length = W * H * 3 ∧
    ∀ j, ((List.range k).foldl
      (fun buf p => writeAt buf ((displs W H N).getD p 0)
        (((local_frame W H N img n f p).take (my_pixels W H N p)).take
          ((sendcounts W H N).getD p 0)))
      (malloc (W * H * 3))).getD j 0
      = if j < start_row H N k * W * 3 then frameAt (P_mpi n f) img j else 0 := by
  intro k
  induction k with
  | zero =>
    intro _
    refine ⟨malloc_length _, fun j => ?_⟩
    rw [start_row_zero, if_neg (by omega)]
    exact malloc_getD _ j
  | succ k ih =>
    intro hk
    obtain ⟨h1, h2⟩ := ih (by omega)
    rw [foldl_range_succ]
    generalize (List.range k).foldl
      (fun buf p => writeAt buf ((displs W H N).getD p 0)
        (((local_frame W H N img n f p).take (my_pixels W H N p)).take
          ((sendcounts W H N).getD p 0)))
      (malloc (W * H * 3)) = g at *
    have hm : ((local_frame W H N img n f k).take (my_pixels W H N k)).take
        ((sendcounts W H N).getD k 0) = local_frame W H N img n f k := by
      have e1 : (local_frame W H N img n f k).take (my_pixels W H N k)
          = local_frame W H N img n f k :=
        List.take_of_length_le (by rw [local_frame_length])
      rw [sendcounts_getD W H N k (by omega), e1, e1]
    have hD : start_row H N (k + 1) * W * 3
        = start_row H N k * W * 3 + my_pixels W H N k := by
      rw [start_row_succ]
      unfold my_pixels
      ring
    have hle : start_row H N (k + 1) * W * 3 ≤ W * H * 3 := by
      have h3 := start_row_le H N (k + 1) hN hk
      have h4 : start_row H N (k + 1) * W ≤ H * W := Nat.mul_le_mul_right W h3
      have h5 : H * W = W * H := Nat.mul_comm H W
      omega
    rw [hm, displs_getD W H N k (by omega)]
    refine ⟨by rw [writeAt_length, h1], fun j => ?_⟩
    rw [writeAt_getD _ _ _ (by rw [local_frame_length, h1]; omega) j, local_frame_length, h2 j]
    by_cases hj : start_row H N k * W * 3 ≤ j ∧ j < start_row H N k * W * 3 + my_pixels W H N k
    · rw [if_pos hj, if_pos (by omega), local_frame_getD W H N img n f k (by omega) _ (by omega)]
      congr 1
      omega
    · rw [if_neg hj]
      by_cases hj2 : j < start_row H N k * W * 3
      · rw [if_pos hj2, if_pos (by omega)]
      · rw [if_neg hj2, if_neg (by omega)]

/-- The gathered frame, for every number of processes: byte `j` is the blended byte
of the image at `j`. -/
theorem final_frame_spec (W H N : ℕ) (img : List ℕ) (n f : ℕ) (hN : 1 ≤ N) :
    final_frame W H N img n f = (List.range (W * H * 3)).map (frameAt (P_mpi n f) img) := by
  obtain ⟨h1, h2⟩ := gather_inv W H N img n f hN N le_rfl
  unfold final_frame gatherv
  apply eq_map_range _ _ _ h1
  intro j hj
  rw [h2 j, start_row_size H N hN, if_pos (by rw [Nat.mul_comm H W]; exact hj)]

theorem my_rows_pos (H N p : ℕ) (hN : 1 ≤ N) (hpH : p < H) :
    1 ≤ my_rows H N p := by
  unfold my_rows rows_per_proc extra
  by_cases h : N ≤ H
  · have h1 : 0 < H / N := Nat.div_pos h (by omega)
    generalize H / N = d at h1 ⊢
    omega
  · rw [Nat.mod_eq_of_lt (by omega), if_pos hpH]
    generalize H / N = d
    omega

theorem my_rows_degenerate (H N p : ℕ) (hN : H < N) :
    my_rows H N p = if p < H then 1 else 0 := by
  unfold my_rows rows_per_proc extra
  rw [Nat.mod_eq_of_lt hN, Nat.div_eq_of_lt hN]
  omega

/-! ## Theorems: the weights and the blend at the end points -/

theorem f32_natCast (m : ℕ) (hm : m < 2 ^ 24) : f32 (m : ℚ) = (m : ℚ) :=
  fl_natCast 24 m hm

theorem f32_zero : f32 0 = 0 := fl_zero 24

theorem f32_one : f32 1 = 1 := by
  have h := f32_natCast 1 (by norm_num)
  simpa using h

theorem toUChar_natCast (m : ℕ) : toUChar (m : ℚ) = m % 256 := by
  unfold toUChar
  rw [Int.floor_natCast, Int.toNat_natCast]

theorem toUChar_lt (x : ℚ) : toUChar x < 256 :=
  Nat.mod_lt _ (by norm_num)

theorem gray_value_lt (r g b : ℕ) : gray_value r g b < 256 := toUChar_lt _

theorem grayAt_lt (img : List ℕ) (j : ℕ) : grayAt img j < 256 := toUChar_lt _

theorem frame_ratio_zero (n : ℕ) : frame_ratio n 0 = 0 := by
  unfold frame_ratio
  rw [Nat.cast_zero, f32_zero, zero_div, f32_zero]

theorem frame_ratio_last (n : ℕ) (hn : 2 ≤ n) : frame_ratio n (n - 1) = 1 := by
  unfold frame_ratio
  have e : (((n - 1 : ℕ) : ℚ)) = (n : ℚ) - 1 := by
    rw [Nat.cast_sub (by omega)]
    simp
  have hpos : (0 : ℚ) < (n : ℚ) - 1 := by
    have : (2 : ℚ) ≤ (n : ℚ) := by exact_mod_cast hn
    linarith
  have h := fl_pos 24 (by norm_num) _ hpos
  rw [e]
  unfold f32
  rw [div_self h.ne.symm]
  exact f32_one

theorem P_mpi_zero (n : ℕ) : P_mpi n 0 = 1 := by
  unfold P_mpi
  rw [frame_ratio_zero, sub_zero, f32_one]

theorem P_mpi_last (n : ℕ) (hn : 2 ≤ n) : P_mpi n (n - 1) = 0 := by
  unfold P_mpi
  rw [frame_ratio_last n hn, sub_self, f32_zero]

/-- With weight one the blend returns the colour byte. -/
theorem blend_one (c g : ℕ) (hc : c < 256) : blend 1 c g = c := by
  unfold blend blend_float
  rw [mul_one, sub_self, f32_zero, mul_zero, f32_zero, add_zero,
    f32_natCast c (by omega), f32_natCast c (by omega), toUChar_natCast]
  omega

/-- With weight zero the blend returns the gray byte. -/
theorem blend_zero (c g : ℕ) (hg : g < 256) : blend 0 c g = g := by
  unfold blend blend_float
  rw [mul_zero, sub_zero, f32_zero, f32_one, mul_one, zero_add,
    f32_natCast g (by omega), f32_natCast g (by omega), toUChar_natCast]
  omega

theorem getD_mem_lt (img : List ℕ) (h : IsBytes img) (j : ℕ) (hj : j < img.length) :
    img.getD j 0 < 256 := by
  rw [List.getD_eq_getElem _ _ hj]
  exact h _ (List.getElem_mem hj)

/-! ## Theorems: rounding errors of the pixel arithmetic -/

theorem f64_err256 (x : ℚ) (h0 : 0 ≤ x) (h1 : x < 256) : |f64 x - x| ≤ 1 / 10 ^ 13 := by
  have e : (2 : ℚ) ^ (8 : ℤ) = 256 := by norm_num
  have h := fl_abs_err 53 8 x h0 (by rw [e]; exact h1)
  have h2 : (2 : ℚ) ^ ((8 : ℤ) - 1 - ((53 : ℕ) : ℤ)) ≤ 1 / 10 ^ 13 := by norm_num
  exact le_trans h h2

theorem f32_err256 (x : ℚ) (h0 : 0 ≤ x) (h1 : x < 256) : |f32 x - x| ≤ 1 / 10 ^ 5 := by
  have e : (2 : ℚ) ^ (8 : ℤ) = 256 := by norm_num
  have h := fl_abs_err 24 8 x h0 (by rw [e]; exact h1)
  have h2 : (2 : ℚ) ^ ((8 : ℤ) - 1 - ((24 : ℕ) : ℤ)) ≤ 1 / 10 ^ 5 := by norm_num
  exact le_trans h h2

theorem f32_err2 (x : ℚ) (h0 : 0 ≤ x) (h1 : x < 2) : |f32 x - x| ≤ 1 / 10 ^ 7 := by
  have e : (2 : ℚ) ^ (1 : ℤ) = 2 := by norm_num
  have h := fl_abs_err 24 1 x h0 (by rw [e]; exact h1)
  have h2 : (2 : ℚ) ^ ((1 : ℤ) - 1 - ((24 : ℕ) : ℤ)) ≤ 1 / 10 ^ 7 := by norm_num
  exact le_trans h h2

theorem f64_nonneg (x : ℚ) (h : 0 ≤ x) : 0 ≤ f64 x := fl_nonneg 53 (by norm_num) x h

theorem f32_nonneg (x : ℚ) (h : 0 ≤ x) : 0 ≤ f32 x := fl_nonneg 24 (by norm_num) x h

theorem f32_mono {x y : ℚ} (hx : 0 ≤ x) (hxy : x ≤ y) : f32 x ≤ f32 y :=
  fl_mono 24 (by norm_num) hx hxy

theorem c_0_3_eq : c_0_3 = 5404319552844595 / 18014398509481984 := by decide!

theorem c_0_59_eq : c_0_59 = 5314247560297185 / 9007199254740992 := by decide!

theorem c_0_11_eq : c_0_11 = 7926335344172073 / 72057594037927936 := by decide!

/-- The `double` gray value is within `10^(-12)` of the exact weighted sum, and lies
in `[0, 256)`. -/
theorem gray_double_bounds (r g b : ℕ) (hr : r < 256) (hg : g < 256) (hb : b < 256) :
    |gray_double r g b - (30 * (r : ℚ) + 59 * (g : ℚ) + 11 * (b : ℚ)) / 100| ≤ 1 / 10 ^ 12 ∧
    0 ≤ gray_double r g b ∧ gray_double r g b < 256 := by
  have hr0 : (0 : ℚ) ≤ (r : ℚ) := by positivity
  have hg0 : (0 : ℚ) ≤ (g : ℚ) := by positivity
  have hb0 : (0 : ℚ) ≤ (b : ℚ) := by positivity
  have hr1 : (r : ℚ) ≤ 255 := by exact_mod_cast Nat.le_of_lt_succ hr
  have hg1 : (g : ℚ) ≤ 255 := by exact_mod_cast Nat.le_of_lt_succ hg
  have hb1 : (b : ℚ) ≤ 255 := by exact_mod_cast Nat.le_of_lt_succ hb
  unfold gray_double
  rw [c_0_3_eq, c_0_59_eq, c_0_11_eq]
  have a1 := f64_err256 (5404319552844595 / 18014398509481984 * (r : ℚ)) (by positivity)
    (by linarith)
  have a2 := f64_err256 (5314247560297185 / 9007199254740992 * (g : ℚ)) (by positivity)
    (by linarith)
  have a3 := f64_err256 (7926335344172073 / 72057594037927936 * (b : ℚ)) (by positivity)
    (by linarith)
  have n1 := f64_nonneg (5404319552844595 / 18014398509481984 * (r : ℚ)) (by positivity)
  have n2 := f64_nonneg (5314247560297185 / 9007199254740992 * (g : ℚ)) (by positivity)
  have n3 := f64_nonneg (7926335344172073 / 72057594037927936 * (b : ℚ)) (by positivity)
  generalize f64 (5404319552844595 / 18014398509481984 * (r : ℚ)) = t1 at *
  generalize f64 (5314247560297185 / 9007199254740992 * (g : ℚ)) = t2 at *
  generalize f64 (7926335344172073 / 72057594037927936 * (b : ℚ)) = t3 at *
  rw [abs_le] at a1 a2 a3
  have a4 := f64_err256 (t1 + t2) (by linarith) (by linarith [a1.2, a2.2])
  have n4 := f64_nonneg (t1 + t2) (by linarith)
  generalize f64 (t1 + t2) = u at *
  rw [abs_le] at a4
  have a5 := f64_err256 (u + t3) (by linarith) (by linarith [a1.2, a2.2, a3.2, a4.2])
  have n5 := f64_nonneg (u + t3) (by linarith)
  generalize f64 (u + t3) = v at *
  rw [abs_le] at a5
  refine ⟨?_, n5, ?_⟩
  · rw [abs_le]
    constructor <;> linarith [a1.1, a1.2, a2.1, a2.2, a3.1, a3.2, a4.1, a4.2, a5.1, a5.2]
  · linarith [a1.1, a1.2, a2.1, a2.2, a3.1, a3.2, a4.1, a4.2, a5.1, a5.2]

theorem toUChar_of_lt (x : ℚ) (h0 : 0 ≤ x) (h1 : x < 256) : toUChar x = ⌊x⌋.toNat := by
  unfold toUChar
  have h2 : ⌊x⌋ < 256 := Int.floor_lt.mpr (by exact_mod_cast h1)
  have h3 : 0 ≤ ⌊x⌋ := Int.floor_nonneg.mpr h0
  omega

theorem frame_ratio_bounds (n f : ℕ) (hn : 2 ≤ n) (hf : f < n) :
    0 ≤ frame_ratio n f ∧ frame_ratio n f ≤ 1 := by
  unfold frame_ratio
  have hpos : (0 : ℚ) < (n : ℚ) - 1 := by
    have : (2 : ℚ) ≤ (n : ℚ) := by exact_mod_cast hn
    linarith
  have hb : 0 < f32 ((n : ℚ) - 1) := fl_pos 24 (by norm_num) _ hpos
  have hf0 : (0 : ℚ) ≤ (f : ℚ) := by positivity
  have hfn : (f : ℚ) ≤ (n : ℚ) - 1 := by
    have : (f : ℚ) + 1 ≤ (n : ℚ) := by exact_mod_cast hf
    linarith
  have ha : 0 ≤ f32 (f : ℚ) := f32_nonneg _ hf0
  have hab : f32 (f : ℚ) ≤ f32 ((n : ℚ) - 1) := f32_mono hf0 hfn
  have h0 : 0 ≤ f32 (f : ℚ) / f32 ((n : ℚ) - 1) := div_nonneg ha hb.le
  have h1 : f32 (f : ℚ) / f32 ((n : ℚ) - 1) ≤ 1 := (div_le_one hb).mpr hab
  refine ⟨f32_nonneg _ h0, ?_⟩
  have := f32_mono h0 h1
  rwa [f32_one] at this

theorem frame_ratio_mono (n f1 f2 : ℕ) (hn : 2 ≤ n) (h : f1 ≤ f2) :
    frame_ratio n f1 ≤ frame_ratio n f2 := by
  unfold frame_ratio
  have hpos : (0 : ℚ) < (n : ℚ) - 1 := by
    have : (2 : ℚ) ≤ (n : ℚ) := by exact_mod_cast hn
    linarith
  have hb : 0 < f32 ((n : ℚ) - 1) := fl_pos 24 (by norm_num) _ hpos
  have hf0 : (0 : ℚ) ≤ (f1 : ℚ) := by positivity
  have h12 : (f1 : ℚ) ≤ (f2 : ℚ) := by exact_mod_cast h
  have ha : 0 ≤ f32 (f1 : ℚ) := f32_nonneg _ hf0
  have hab : f32 (f1 : ℚ) ≤ f32 (f2 : ℚ) := f32_mono hf0 h12
  exact f32_mono (div_nonneg ha hb.le) (div_le_div_of_nonneg_right hab hb.le)

theorem P_mpi_bounds (n f : ℕ) (hn : 2 ≤ n) (hf : f < n) : 0 ≤ P_mpi n f ∧ P_mpi n f ≤ 1 := by
  obtain ⟨h0, h1⟩ := frame_ratio_bounds n f hn hf
  unfold P_mpi
  refine ⟨f32_nonneg _ (by linarith), ?_⟩
  have := f32_mono (by linarith : (0 : ℚ) ≤ 1 - frame_ratio n f)
    (by linarith : 1 - frame_ratio n f ≤ 1)
  rwa [f32_one] at this

/-- The `float` weight does not increase with the frame index. -/
theorem P_mpi_anti (n f1 f2 : ℕ) (hn : 2 ≤ n) (h : f1 ≤ f2) (hf : f2 < n) :
    P_mpi n f2 ≤ P_mpi n f1 := by
  have h1 := (frame_ratio_bounds n f2 hn hf).2
  have h2 := frame_ratio_mono n f1 f2 hn h
  unfold P_mpi
  exact f32_mono (by linarith) (by linarith)

/-- The `float` blend is within `10^(-4)` of the exact blend for the same weight, and
lies in `[0, 256)`. -/
theorem blend_float_bounds (P : ℚ) (c g : ℕ) (hP0 : 0 ≤ P) (hP1 : P ≤ 1) (hc : c < 256)
    (hg : g < 256) :
    |blend_float P c g - ((c : ℚ) * P + (g : ℚ) * (1 - P))| ≤ 1 / 10 ^ 4 ∧
    0 ≤ blend_float P c g ∧ blend_float P c g < 256 := by
  have hc0 : (0 : ℚ) ≤ (c : ℚ) := by positivity
  have hg0 : (0 : ℚ) ≤ (g : ℚ) := by positivity
  have hc1 : (c : ℚ) ≤ 255 := by exact_mod_cast Nat.le_of_lt_succ hc
  have hg1 : (g : ℚ) ≤ 255 := by exact_mod_cast Nat.le_of_lt_succ hg
  unfold blend_float
  have q1 := f32_err2 (1 - P) (by linarith) (by linarith)
  have qn := f32_nonneg (1 - P) (by linarith)
  generalize f32 (1 - P) = Q at *
  rw [abs_le] at q1
  have x1a : 0 ≤ (c : ℚ) * P := mul_nonneg hc0 hP0
  have x1b : (c : ℚ) * P ≤ 255 * P := mul_le_mul_of_nonneg_right hc1 hP0
  have x2a : 0 ≤ (g : ℚ) * Q := mul_nonneg hg0 qn
  have x2b : (g : ℚ) * Q ≤ 255 * Q := mul_le_mul_of_nonneg_right hg1 qn
  have x2c : (g : ℚ) * Q ≤ (g : ℚ) * ((1 - P) + 1 / 10 ^ 7) :=
    mul_le_mul_of_nonneg_left (by linarith [q1.2]) hg0
  have x2d : (g : ℚ) * ((1 - P) - 1 / 10 ^ 7) ≤ (g : ℚ) * Q :=
    mul_le_mul_of_nonneg_left (by linarith [q1.1]) hg0
  have x3 : (g : ℚ) * (1 - P) ≤ 255 * (1 - P) :=
    mul_le_mul_of_nonneg_right hg1 (by linarith)
  have a1 := f32_err256 ((c : ℚ) * P) x1a (by linarith)
  have n1 := f32_nonneg ((c : ℚ) * P) x1a
  have a2 := f32_err256 ((g : ℚ) * Q) x2a (by linarith [q1.2])
  have n2 := f32_nonneg ((g : ℚ) * Q) x2a
  generalize f32 ((c : ℚ) * P) = A at *
  generalize f32 ((g : ℚ) * Q) = B at *
  rw [abs_le] at a1 a2
  have e1 : (g : ℚ) * ((1 - P) + 1 / 10 ^ 7) = (g : ℚ) * (1 - P) + (g : ℚ) * (1 / 10 ^ 7) := by
    ring
  have e2 : (g : ℚ) * ((1 - P) - 1 / 10 ^ 7) = (g : ℚ) * (1 - P) - (g : ℚ) * (1 / 10 ^ 7) := by
    ring
  rw [e1] at x2c
  rw [e2] at x2d
  have a3 := f32_err256 (A + B) (by linarith)
    (by linarith [a1.2, a2.2])
  have n3 := f32_nonneg (A + B) (by linarith)
  generalize f32 (A + B) = S at *
  rw [abs_le] at a3
  generalize (g : ℚ) * (1 - P) = gP at *
  generalize (c : ℚ) * P = cP at *
  generalize (g : ℚ) * Q = gQ at *
  refine ⟨?_, n3, ?_⟩
  · rw [abs_le]
    constructor <;> linarith [a1.1, a1.2, a2.1, a2.2, a3.1, a3.2]
  · linarith [a1.1, a1.2, a2.1, a2.2, a3.1, a3.2]

theorem floor_toNat_le_succ (x y : ℚ) (hx : 0 ≤ x) (hxy : x ≤ y + 1 / 2) :
    ⌊x⌋.toNat ≤ ⌊y⌋.toNat + 1 := by
  have h1 : ⌊x⌋ ≤ ⌊y + 1⌋ := Int.floor_mono (by linarith)
  rw [Int.floor_add_one] at h1
  have h2 : 0 ≤ ⌊x⌋ := Int.floor_nonneg.mpr hx
  omega

theorem spec_P_bounds (n f : ℕ) (hn : 2 ≤ n) (hf : f < n) : 0 ≤ spec_P n f ∧ spec_P n f ≤ 1 := by
  unfold spec_P
  have hpos : (0 : ℚ) < (n : ℚ) - 1 := by
    have : (2 : ℚ) ≤ (n : ℚ) := by exact_mod_cast hn
    linarith
  have hf0 : (0 : ℚ) ≤ (f : ℚ) := by positivity
  have hfn : (f : ℚ) ≤ (n : ℚ) - 1 := by
    have : (f : ℚ) + 1 ≤ (n : ℚ) := by exact_mod_cast hf
    linarith
  have h0 : 0 ≤ (f : ℚ) / ((n : ℚ) - 1) := div_nonneg hf0 hpos.le
  have h1 : (f : ℚ) / ((n : ℚ) - 1) ≤ 1 := (div_le_one hpos).mpr hfn
  constructor <;> linarith

theorem spec_P_anti (n f1 f2 : ℕ) (hn : 2 ≤ n) (h : f1 ≤ f2) : spec_P n f2 ≤ spec_P n f1 := by
  unfold spec_P
  have hpos : (0 : ℚ) < (n : ℚ) - 1 := by
    have : (2 : ℚ) ≤ (n : ℚ) := by exact_mod_cast hn
    linarith
  have h12 : (f1 : ℚ) ≤ (f2 : ℚ) := by exact_mod_cast h
  have := div_le_div_of_nonneg_right h12 hpos.le
  linarith

/-! ## Theorems: the two ways of computing the weight agree -/

theorem f64_one : f64 1 = 1 := by
  have h := fl_natCast 53 1 (by norm_num)
  simpa [f64] using h

theorem f64_mono {x y : ℚ} (hx : 0 ≤ x) (hxy : x ≤ y) : f64 x ≤ f64 y :=
  fl_mono 53 (by norm_num) hx hxy

theorem f64_near_one : f64 (1 - 1 / 2 ^ 28) = 1 - 1 / 2 ^ 28 := by decide!

theorem f32_near_one : f32 (1 - 1 / 2 ^ 28) = 1 := by decide!

/-- Subtracting a `float` in `[0, 1]` from one in `double` and converting the result
to `float` gives the same value as subtracting in `float`. -/
theorem f32_f64_one_sub (x : ℚ) (hx : 0 ≤ x) (hq1 : f32 x ≤ 1) :
    f32 (f64 (1 - f32 x)) = f32 (1 - f32 x) := by
  rcases hx.eq_or_lt with h | h
  · rw [← h, f32_zero, sub_zero, f64_one]
  have hq0 : 0 < f32 x := fl_pos 24 (by norm_num) x h
  by_cases hsmall : f32 x < 1 / 2 ^ 28
  · have l1 : (1 : ℚ) - 1 / 2 ^ 28 ≤ 1 - f32 x := by linarith
    have l2 : 1 - f32 x ≤ 1 := by linarith
    have l0 : (0 : ℚ) ≤ 1 - 1 / 2 ^ 28 := by norm_num
    have m1 := f64_mono l0 l1
    rw [f64_near_one] at m1
    have m2 := f64_mono (by linarith : (0 : ℚ) ≤ 1 - f32 x) l2
    rw [f64_one] at m2
    have u1 := f32_mono l0 m1
    rw [f32_near_one] at u1
    have u2 := f32_mono (by linarith : (0 : ℚ) ≤ f64 (1 - f32 x)) m2
    rw [f32_one] at u2
    have v1 := f32_mono l0 l1
    rw [f32_near_one] at v1
    have v2 := f32_mono (by linarith : (0 : ℚ) ≤ 1 - f32 x) l2
    rw [f32_one] at v2
    linarith
  · have hb := fl_bounds 24 (by norm_num) x h
    have hq := fl_of_pos 24 x h
    have hM := (rne_scaled_bounds 24 (by norm_num) x h).1
    unfold f32 at hq1 hsmall ⊢
    have he1 : (-28 : ℤ) ≤ flog2 x + 1 := by
      have h1 : (2 : ℚ) ^ (-28 : ℤ) ≤ 2 ^ (flog2 x + 1) := by
        have e : (2 : ℚ) ^ (-28 : ℤ) = 1 / 2 ^ 28 := by norm_num
        rw [e]
        linarith [hb.2]
      exact (zpow_le_zpow_iff_right₀ (by norm_num : (1 : ℚ) < 2)).mp h1
    have he2 : flog2 x ≤ 0 := by
      have h1 : (2 : ℚ) ^ flog2 x ≤ 2 ^ (0 : ℤ) := by
        rw [zpow_zero]
        linarith [hb.1]
      exact (zpow_le_zpow_iff_right₀ (by norm_num : (1 : ℚ) < 2)).mp h1
    obtain ⟨t, ht⟩ : ∃ t : ℕ, ((24 : ℕ) : ℤ) - 1 - flog2 x = (t : ℤ) :=
      ⟨(((24 : ℕ) : ℤ) - 1 - flog2 x).toNat, by omega⟩
    have ht2 : t ≤ 52 := by omega
    rw [ht] at hq hM
    generalize rne (x * 2 ^ (t : ℤ)) = M at hq hM
    have hM0 : 0 ≤ M := le_trans (by positivity) hM
    obtain ⟨m, hm⟩ : ∃ m : ℕ, M = (m : ℤ) := ⟨M.toNat, by omega⟩
    rw [hm, zpow_natCast] at hq
    have hq2 : fl 24 x = (m : ℚ) / 2 ^ t := by
      rw [hq, Int.cast_natCast]
    have hpt : (0 : ℚ) < 2 ^ t := by positivity
    have hmle : m ≤ 2 ^ t := by
      have h1 : (m : ℚ) / 2 ^ t ≤ 1 := by rw [← hq2]; exact hq1
      have h2 : (m : ℚ) ≤ 2 ^ t := (div_le_one hpt).mp h1
      exact_mod_cast h2
    have hrep : 1 - fl 24 x = ((2 ^ t - m : ℕ) : ℚ) * 2 ^ (-(t : ℤ)) := by
      rw [hq2, Nat.cast_sub hmle, zpow_neg, zpow_natCast]
      push_cast
      field_simp
    have hlt : 2 ^ t - m < 2 ^ 53 := by
      have h1 : 2 ^ t ≤ 2 ^ 52 := Nat.pow_le_pow_right (by norm_num) ht2
      have h2 : (2 : ℕ) ^ 52 < 2 ^ 53 := by norm_num
      omega
    have hfix : f64 (1 - fl 24 x) = 1 - fl 24 x := by
      unfold f64
      rw [hrep]
      exact fl_repr 53 _ _ hlt
    rw [hfix]

/-- The weight of the sequential and OpenMP programs equals the weight of the MPI
program. -/
theorem P_seq_eq_P_mpi (n f : ℕ) (hn : 2 ≤ n) (hf : f < n) : P_seq n f = P_mpi n f := by
  unfold P_seq P_mpi frame_ratio
  have hb := (frame_ratio_bounds n f hn hf).2
  unfold frame_ratio at hb
  have hpos : (0 : ℚ) < (n : ℚ) - 1 := by
    have : (2 : ℚ) ≤ (n : ℚ) := by exact_mod_cast hn
    linarith
  have h0 : 0 ≤ f32 (f : ℚ) / f32 ((n : ℚ) - 1) :=
    div_nonneg (f32_nonneg _ (by positivity)) (f32_nonneg _ hpos.le)
  exact f32_f64_one_sub _ h0 hb

/-! ## Theorems: the computed blend against the exact blend -/

/-- Relative rounding error. -/
theorem fl_rel_err (p : ℕ) (x : ℚ) (hx : 0 ≤ x) : |fl p x - x| ≤ x * 2 ^ (-(p : ℤ)) := by
  rcases hx.eq_or_lt with h | h
  · rw [← h, fl_zero]
    simp
  have h1 := (flog2_spec x h).1
  have h2 := fl_err p x h
  have e : (2 : ℚ) ^ (flog2 x - (p : ℤ)) = 2 ^ flog2 x * 2 ^ (-(p : ℤ)) := by
    rw [← zpow_add₀ (two_ne_zero)]
    rfl
  rw [e] at h2
  have hp : (0 : ℚ) ≤ 2 ^ (-(p : ℤ)) := by positivity
  exact le_trans h2 (mul_le_mul_of_nonneg_right h1 hp)

theorem f32_rel_err (x : ℚ) (hx : 0 ≤ x) : |f32 x - x| ≤ x * (6 / 10 ^ 8) := by
  have h := fl_rel_err 24 x hx
  have h2 : (2 : ℚ) ^ (-((24 : ℕ) : ℤ)) ≤ 6 / 10 ^ 8 := by norm_num
  exact le_trans h (mul_le_mul_of_nonneg_left h2 hx)

/-- The `float` quotient is within `3 * 10^(-7)` of the exact quotient. -/
theorem frame_ratio_err (n f : ℕ) (hn : 2 ≤ n) (hf : f < n) :
    |frame_ratio n f - (f : ℚ) / ((n : ℚ) - 1)| ≤ 3 / 10 ^ 7 := by
  have hB : (1 : ℚ) ≤ (n : ℚ) - 1 := by
    have : (2 : ℚ) ≤ (n : ℚ) := by exact_mod_cast hn
    linarith
  have hF0 : (0 : ℚ) ≤ (f : ℚ) := by positivity
  have hFB : (f : ℚ) ≤ (n : ℚ) - 1 := by
    have : (f : ℚ) + 1 ≤ (n : ℚ) := by exact_mod_cast hf
    linarith
  have ea := f32_rel_err (f : ℚ) hF0
  have eb := f32_rel_err ((n : ℚ) - 1) (by linarith)
  have hb : 0 < f32 ((n : ℚ) - 1) := fl_pos 24 (by norm_num) _ (by linarith)
  have ha : 0 ≤ f32 (f : ℚ) := f32_nonneg _ hF0
  have hab : f32 (f : ℚ) ≤ f32 ((n : ℚ) - 1) := f32_mono hF0 hFB
  have hq0 : 0 ≤ f32 (f : ℚ) / f32 ((n : ℚ) - 1) := div_nonneg ha hb.le
  have hq1 : f32 (f : ℚ) / f32 ((n : ℚ) - 1) ≤ 1 := (div_le_one hb).mpr hab
  have eq := f32_err2 (f32 (f : ℚ) / f32 ((n : ℚ) - 1)) hq0 (by linarith)
  unfold frame_ratio
  generalize f32 (f32 (f : ℚ) / f32 ((n : ℚ) - 1)) = q at *
  generalize f32 (f : ℚ) = a at *
  generalize f32 ((n : ℚ) - 1) = b at *
  generalize (f : ℚ) = F at *
  generalize (n : ℚ) - 1 = B at *
  rw [abs_le] at ea eb eq
  have hBpos : (0 : ℚ) < B := by linarith
  have key : F * (1 + 6 / 10 ^ 8) ≤ (F + 2 / 10 ^ 7 * B) * (1 - 6 / 10 ^ 8) := by linarith
  have k1 := mul_le_mul_of_nonneg_right key hBpos.le
  have k2 : a * B ≤ F * (1 + 6 / 10 ^ 8) * B :=
    mul_le_mul_of_nonneg_right (by linarith [ea.2]) hBpos.le
  have k3 : (F + 2 / 10 ^ 7 * B) * (B * (1 - 6 / 10 ^ 8)) ≤ (F + 2 / 10 ^ 7 * B) * b :=
    mul_le_mul_of_nonneg_left (by linarith [eb.1]) (by linarith)
  have k4 : F * b ≤ F * (B * (1 + 6 / 10 ^ 8)) :=
    mul_le_mul_of_nonneg_left (by linarith [eb.2]) hF0
  have k5 : (F * (1 - 6 / 10 ^ 8) + 2 / 10 ^ 7 * (B * (1 - 6 / 10 ^ 8))) * B
      ≤ (a + 2 / 10 ^ 7 * b) * B :=
    mul_le_mul_of_nonneg_right (by linarith [ea.1, eb.1]) hBpos.le
  have up : a / b ≤ F / B + 2 / 10 ^ 7 := by
    rw [div_le_iff₀ hb]
    have e : (F / B + 2 / 10 ^ 7) * b = (F + 2 / 10 ^ 7 * B) * b / B := by
      field_simp
      ring
    rw [e, le_div_iff₀ hBpos]
    linarith
  have lo : F / B ≤ a / b + 2 / 10 ^ 7 := by
    rw [div_le_iff₀ hBpos]
    have e : (a / b + 2 / 10 ^ 7) * B = (a + 2 / 10 ^ 7 * b) * B / b := by
      field_simp
      ring
    rw [e, le_div_iff₀ hb]
    linarith
  rw [abs_le]
  constructor <;> linarith [eq.1, eq.2]

/-- The `float` weight is within `4 * 10^(-7)` of the exact weight. -/
theorem P_mpi_err (n f : ℕ) (hn : 2 ≤ n) (hf : f < n) :
    |P_mpi n f - spec_P n f| ≤ 4 / 10 ^ 7 := by
  have h1 := frame_ratio_err n f hn hf
  obtain ⟨b0, b1⟩ := frame_ratio_bounds n f hn hf
  have h2 := f32_err2 (1 - frame_ratio n f) (by linarith) (by linarith)
  unfold P_mpi spec_P
  rw [abs_le] at h1 h2 ⊢
  constructor <;> linarith [h1.1, h1.2, h2.1, h2.2]

/-- The byte computed by the program is the exactly evaluated byte or differs from it
by one. -/
theorem blend_vs_spec (n f c g : ℕ) (hn : 2 ≤ n) (hf : f < n) (hc : c < 256) (hg : g < 256) :
    blend (P_mpi n f) c g ≤ spec_blend n f c g + 1 ∧
    spec_blend n f c g ≤ blend (P_mpi n f) c g + 1 := by
  obtain ⟨p0, p1⟩ := P_mpi_bounds n f hn hf
  obtain ⟨s0, s1⟩ := spec_P_bounds n f hn hf
  obtain ⟨e1, n1, u1⟩ := blend_float_bounds (P_mpi n f) c g p0 p1 hc hg
  have hP := P_mpi_err n f hn hf
  have hv : blend (P_mpi n f) c g = ⌊blend_float (P_mpi n f) c g⌋.toNat :=
    toUChar_of_lt _ n1 u1
  rw [hv]
  unfold spec_blend spec_blend_value
  have hc0 : (0 : ℚ) ≤ (c : ℚ) := by positivity
  have hg0 : (0 : ℚ) ≤ (g : ℚ) := by positivity
  have hc1 : (c : ℚ) ≤ 255 := by exact_mod_cast Nat.le_of_lt_succ hc
  have hg1 : (g : ℚ) ≤ 255 := by exact_mod_cast Nat.le_of_lt_succ hg
  generalize blend_float (P_mpi n f) c g = S at *
  generalize P_mpi n f = P at *
  generalize spec_P n f = Q at *
  rw [abs_le] at e1 hP
  have d1 : (c : ℚ) * (P - Q) ≤ (c : ℚ) * (4 / 10 ^ 7) :=
    mul_le_mul_of_nonneg_left (by linarith [hP.2]) hc0
  have d2 : (c : ℚ) * (-(4 / 10 ^ 7)) ≤ (c : ℚ) * (P - Q) :=
    mul_le_mul_of_nonneg_left (by linarith [hP.1]) hc0
  have d3 : (g : ℚ) * (P - Q) ≤ (g : ℚ) * (4 / 10 ^ 7) :=
    mul_le_mul_of_nonneg_left (by linarith [hP.2]) hg0
  have d4 : (g : ℚ) * (-(4 / 10 ^ 7)) ≤ (g : ℚ) * (P - Q) :=
    mul_le_mul_of_nonneg_left (by linarith [hP.1]) hg0
  have x0 : 0 ≤ (c : ℚ) * Q + (g : ℚ) * (1 - Q) :=
    add_nonneg (mul_nonneg hc0 s0) (mul_nonneg hg0 (by linarith))
  constructor
  · exact floor_toNat_le_succ _ _ n1 (by linarith [e1.1, e1.2])
  · exact floor_toNat_le_succ _ _ x0 (by linarith [e1.1, e1.2])

/-! ## Theorems: blending a byte with itself -/

theorem flog2_unique (x : ℚ) (m : ℤ) (h1 : (2 : ℚ) ^ m ≤ x) (h2 : x < (2 : ℚ) ^ (m + 1)) :
    flog2 x = m := by
  have hx : 0 < x := lt_of_lt_of_le (by positivity) h1
  obtain ⟨s1, s2⟩ := flog2_spec x hx
  have a1 : (2 : ℚ) ^ flog2 x < 2 ^ (m + 1) := lt_of_le_of_lt s1 h2
  have a2 : (2 : ℚ) ^ m < 2 ^ (flog2 x + 1) := lt_of_le_of_lt h1 s2
  have b1 := (zpow_lt_zpow_iff_right₀ (by norm_num : (1 : ℚ) < 2)).mp a1
  have b2 := (zpow_lt_zpow_iff_right₀ (by norm_num : (1 : ℚ) < 2)).mp a2
  omega

/-- A tie below an even integer is rounded up to it. -/
theorem rne_half_even (k : ℤ) (hk : k % 2 = 0) : rne ((k : ℚ) - 1 / 2) = k := by
  have hf : ⌊(k : ℚ) - 1 / 2⌋ = k - 1 := by
    rw [Int.floor_eq_iff]
    push_cast
    constructor <;> linarith
  have hr : (k : ℚ) - 1 / 2 - (((k - 1 : ℤ)) : ℚ) = 1 / 2 := by
    push_cast
    ring
  unfold rne
  simp only [hf, hr]
  rw [if_neg (lt_irrefl _), if_neg (lt_irrefl _), if_neg (by omega)]
  ring

theorem fl_repr_le (p : ℕ) (m : ℕ) (k : ℤ) (hm : m ≤ 2 ^ p) (hp : 1 ≤ p) :
    fl p ((m : ℚ) * 2 ^ k) = (m : ℚ) * 2 ^ k := by
  rcases Nat.lt_or_ge m (2 ^ p) with h | h
  · exact fl_repr p m k h
  · have e : m = 2 ^ p := le_antisymm hm h
    have e2 : (m : ℚ) * 2 ^ k = ((1 : ℕ) : ℚ) * 2 ^ ((p : ℤ) + k) := by
      rw [e, zpow_add₀ (two_ne_zero), zpow_natCast]
      push_cast
      ring
    rw [e2]
    exact fl_repr p 1 _ (Nat.one_lt_two_pow (by omega))

/-- Half a unit in the last place below a byte that is not a power of two rounds back
to the byte. -/
theorem fl_below_byte (c m : ℕ) (hm : m ≤ 7) (h1 : 2 ^ m < c) (h2 : c < 2 ^ (m + 1)) :
    fl 24 ((c : ℚ) - 2 ^ ((m : ℤ) - 24)) = (c : ℚ) := by
  have hu1 : (2 : ℚ) ^ ((m : ℤ) - 24) ≤ 1 := by
    have := zpow_le_zpow_right₀ (by norm_num : (1 : ℚ) ≤ 2) (by omega : (m : ℤ) - 24 ≤ 0)
    simpa using this
  have hu0 : (0 : ℚ) < 2 ^ ((m : ℤ) - 24) := by positivity
  have c1 : (2 : ℚ) ^ m + 1 ≤ (c : ℚ) := by exact_mod_cast h1
  have c2 : (c : ℚ) < 2 ^ (m + 1) := by exact_mod_cast h2
  have hx1 : (2 : ℚ) ^ (m : ℤ) ≤ (c : ℚ) - 2 ^ ((m : ℤ) - 24) := by
    rw [zpow_natCast]
    linarith
  have hx2 : (c : ℚ) - 2 ^ ((m : ℤ) - 24) < 2 ^ ((m : ℤ) + 1) := by
    have e : (2 : ℚ) ^ ((m : ℤ) + 1) = 2 ^ (m + 1) := by
      rw [← zpow_natCast]
      push_cast
      rfl
    rw [e]
    linarith
  have hlog := flog2_unique _ _ hx1 hx2
  have hpos : (0 : ℚ) < (c : ℚ) - 2 ^ ((m : ℤ) - 24) := lt_of_lt_of_le (by positivity) hx1
  rw [fl_of_pos 24 _ hpos, hlog]
  obtain ⟨t, ht⟩ : ∃ t : ℕ, 23 - m = t + 1 := ⟨23 - m - 1, by omega⟩
  have hs : ((24 : ℕ) : ℤ) - 1 - (m : ℤ) = ((t + 1 : ℕ) : ℤ) := by omega
  rw [hs, zpow_natCast]
  have hsc : ((c : ℚ) - 2 ^ ((m : ℤ) - 24)) * 2 ^ (t + 1)
      = (((c * 2 ^ (t + 1) : ℕ) : ℤ) : ℚ) - 1 / 2 := by
    have e : (2 : ℚ) ^ ((m : ℤ) - 24) * 2 ^ (t + 1) = 1 / 2 := by
      rw [← zpow_natCast, ← zpow_add₀ (two_ne_zero)]
      have : (m : ℤ) - 24 + ((t + 1 : ℕ) : ℤ) = -1 := by omega
      rw [this]
      norm_num
    rw [sub_mul, e]
    push_cast
    ring
  have hev : ((c * 2 ^ (t + 1) : ℕ) : ℤ) % 2 = 0 := by
    have : (c * 2 ^ (t + 1)) % 2 = 0 := by
      rw [pow_succ, ← Nat.mul_assoc]
      exact Nat.mul_mod_left _ 2
    omega
  rw [hsc, rne_half_even _ hev]
  have hp2 : (0 : ℚ) < 2 ^ (t + 1) := by positivity
  push_cast
  field_simp

theorem key_sum_big (c m : ℕ) (x y : ℚ) (hm : m ≤ 7) (h2 : c < 2 ^ (m + 1))
    (hy : 0 ≤ y) (hxy : x + y = (c : ℚ)) (hxm : (2 : ℚ) ^ (m : ℤ) ≤ x) :
    (c : ℚ) - 2 ^ ((m : ℤ) - 24) ≤ fl 24 x + fl 24 y := by
  have hu0 : (0 : ℚ) < 2 ^ ((m : ℤ) - 24) := by positivity
  have hx0 : 0 < x := lt_of_lt_of_le (by positivity) hxm
  have c2 : (c : ℚ) < 2 ^ ((m : ℤ) + 1) := by
    have e : (2 : ℚ) ^ ((m : ℤ) + 1) = 2 ^ (m + 1) := by
      rw [← zpow_natCast]
      push_cast
      rfl
    rw [e]
    exact_mod_cast h2
  have hlog := flog2_unique x m hxm (by linarith)
  have hY : 0 ≤ fl 24 y := fl_nonneg 24 (by norm_num) y hy
  have hc24 : c < 2 ^ 24 := by
    have : 2 ^ (m + 1) ≤ 2 ^ 24 := Nat.pow_le_pow_right (by norm_num) (by omega)
    omega
  have hXc : fl 24 x ≤ (c : ℚ) := by
    have := fl_mono 24 (by norm_num) hx0.le (by linarith : x ≤ (c : ℚ))
    rwa [fl_natCast 24 c hc24] at this
  have herr := fl_err 24 x hx0
  rw [hlog, abs_le] at herr
  have hM := rne_scaled_bounds 24 (by norm_num) x hx0
  have hq := fl_of_pos 24 x hx0
  rw [hlog] at hM hq
  obtain ⟨t, ht⟩ : ∃ t : ℕ, ((24 : ℕ) : ℤ) - 1 - (m : ℤ) = (t : ℤ) := ⟨23 - m, by omega⟩
  have htm : t + m = 23 := by omega
  rw [ht] at hM hq
  generalize rne (x * 2 ^ (t : ℤ)) = M at hM hq
  rw [zpow_natCast] at hq
  have hpt : (0 : ℚ) < 2 ^ t := by positivity
  -- the distance `c - X` counted in units in the last place
  have hMc : M ≤ ((c * 2 ^ t : ℕ) : ℤ) := by
    have h1 : (M : ℚ) / 2 ^ t ≤ (c : ℚ) := by rw [← hq]; exact hXc
    have h3 : (M : ℚ) ≤ (c : ℚ) * 2 ^ t := (div_le_iff₀ hpt).mp h1
    have h4 : (M : ℚ) ≤ (((c * 2 ^ t : ℕ) : ℤ) : ℚ) := by
      push_cast
      exact h3
    exact_mod_cast h4
  have hc2t : c * 2 ^ t < 2 ^ 24 := by
    have h1 : c * 2 ^ t < 2 ^ (m + 1) * 2 ^ t := Nat.mul_lt_mul_of_pos_right h2 (by positivity)
    have h3 : 2 ^ (m + 1) * 2 ^ t = 2 ^ 24 := by
      rw [← pow_add]
      congr 1
      omega
    omega
  have hM23 : (2 : ℤ) ^ 23 ≤ M := by simpa using hM.1
  obtain ⟨k, hk⟩ : ∃ k : ℕ, ((c * 2 ^ t : ℕ) : ℤ) - M = (k : ℤ) :=
    ⟨(((c * 2 ^ t : ℕ) : ℤ) - M).toNat, by omega⟩
  have hk23 : k < 2 ^ 23 := by
    have h1 : ((c * 2 ^ t : ℕ) : ℤ) < 2 ^ 24 := by exact_mod_cast hc2t
    have h3 : (k : ℤ) < 2 ^ 23 := by omega
    exact_mod_cast h3
  have hu : (2 : ℚ) ^ ((m : ℤ) - 24) * 2 ^ t = 1 / 2 := by
    rw [← zpow_natCast, ← zpow_add₀ (two_ne_zero)]
    have : (m : ℤ) - 24 + (t : ℤ) = -1 := by omega
    rw [this]
    norm_num
  have hcX : (c : ℚ) - fl 24 x = (k : ℚ) / 2 ^ t := by
    have h1 : (k : ℚ) = (c : ℚ) * 2 ^ t - (M : ℚ) := by
      have := congrArg (fun z : ℤ => (z : ℚ)) hk
      simp only at this
      push_cast at this
      linarith
    rw [hq, h1]
    field_simp
  rcases Nat.eq_zero_or_pos k with hk0 | hkpos
  · rw [hk0] at hcX
    simp only [Nat.cast_zero, zero_div] at hcX
    linarith
  · have hw : (c : ℚ) - fl 24 x - 2 ^ ((m : ℤ) - 24)
        = ((2 * k - 1 : ℕ) : ℚ) * 2 ^ ((m : ℤ) - 24) := by
      have h1 : ((2 * k - 1 : ℕ) : ℚ) = 2 * (k : ℚ) - 1 := by
        rw [Nat.cast_sub (by omega)]
        push_cast
        ring
      have h3 : (k : ℚ) / 2 ^ t = 2 * (k : ℚ) * 2 ^ ((m : ℤ) - 24) := by
        rw [div_eq_iff hpt.ne.symm]
        have : 2 * (k : ℚ) * 2 ^ ((m : ℤ) - 24) * 2 ^ t
            = 2 * (k : ℚ) * (2 ^ ((m : ℤ) - 24) * 2 ^ t) := by ring
        rw [this, hu]
        ring
      rw [hcX, h1, h3]
      ring
    have hrep := fl_repr 24 (2 * k - 1) ((m : ℤ) - 24) (by omega)
    rw [← hw] at hrep
    have hw0 : 0 ≤ (c : ℚ) - fl 24 x - 2 ^ ((m : ℤ) - 24) := by
      rw [hw]
      positivity
    have hyw : (c : ℚ) - fl 24 x - 2 ^ ((m : ℤ) - 24) ≤ y := by
      have e : (2 : ℚ) ^ ((m : ℤ) - ((24 : ℕ) : ℤ)) = 2 ^ ((m : ℤ) - 24) := rfl
      rw [e] at herr
      linarith [herr.1]
    have hmono := fl_mono 24 (by norm_num) hw0 hyw
    rw [hrep] at hmono
    linarith

/-- The two rounded products of a byte that is not a power of two add up to at least
the byte minus half a unit in the last place. -/
theorem key_sum (c m : ℕ) (x y : ℚ) (hm : m ≤ 7) (h2 : c < 2 ^ (m + 1))
    (hx : 0 ≤ x) (hy : 0 ≤ y) (hxy : x + y = (c : ℚ)) :
    (c : ℚ) - 2 ^ ((m : ℤ) - 24) ≤ fl 24 x + fl 24 y := by
  by_cases h1 : (2 : ℚ) ^ (m : ℤ) ≤ x
  · exact key_sum_big c m x y hm h2 hy hxy h1
  by_cases h3 : (2 : ℚ) ^ (m : ℤ) ≤ y
  · have := key_sum_big c m y x hm h2 hx (by linarith) h3
    linarith
  · have e1 := fl_abs_err 24 (m : ℤ) x hx (not_le.mp h1)
    have e2 := fl_abs_err 24 (m : ℤ) y hy (not_le.mp h3)
    rw [abs_le] at e1 e2
    have hu : (2 : ℚ) ^ ((m : ℤ) - 1 - ((24 : ℕ) : ℤ)) + 2 ^ ((m : ℤ) - 1 - ((24 : ℕ) : ℤ))
        = 2 ^ ((m : ℤ) - 24) := by
      have : (m : ℤ) - 24 = ((m : ℤ) - 1 - ((24 : ℕ) : ℤ)) + 1 := by omega
      rw [this, zpow_add₀ (two_ne_zero), zpow_one]
      ring
    linarith [e1.1, e2.1]

/-- A `float` in `[1/2, 1]` is a multiple of `2^(-24)`. -/
theorem grid24 (z : ℚ) (hz0 : 1 / 2 ≤ z) (hz1 : z ≤ 1) :
    ∃ j : ℕ, j ≤ 2 ^ 24 ∧ fl 24 z = (j : ℚ) / 2 ^ 24 := by
  have hpos : 0 < z := by linarith
  obtain ⟨s1, s2⟩ := flog2_spec z hpos
  have he1 : -1 ≤ flog2 z := by
    have h1 : (2 : ℚ) ^ (-1 : ℤ) < 2 ^ (flog2 z + 1) := by
      have e : (2 : ℚ) ^ (-1 : ℤ) = 1 / 2 := by norm_num
      rw [e]
      linarith
    have := (zpow_lt_zpow_iff_right₀ (by norm_num : (1 : ℚ) < 2)).mp h1
    omega
  have he2 : flog2 z ≤ 0 := by
    have h1 : (2 : ℚ) ^ flog2 z ≤ 2 ^ (0 : ℤ) := by
      rw [zpow_zero]
      linarith
    exact (zpow_le_zpow_iff_right₀ (by norm_num : (1 : ℚ) < 2)).mp h1
  have hle1 : fl 24 z ≤ 1 := by
    have := fl_mono 24 (by norm_num) hpos.le hz1
    have h1 : fl 24 1 = 1 := f32_one
    rwa [h1] at this
  have hM := (rne_scaled_bounds 24 (by norm_num) z hpos).1
  have hq := fl_of_pos 24 z hpos
  obtain ⟨t, ht⟩ : ∃ t : ℕ, ((24 : ℕ) : ℤ) - 1 - flog2 z = (t : ℤ) :=
    ⟨(((24 : ℕ) : ℤ) - 1 - flog2 z).toNat, by omega⟩
  have ht24 : t ≤ 24 := by omega
  rw [ht] at hM hq
  generalize rne (z * 2 ^ (t : ℤ)) = M at hM hq
  have hM0 : 0 ≤ M := le_trans (by positivity) hM
  obtain ⟨m, hm⟩ : ∃ m : ℕ, M = (m : ℤ) := ⟨M.toNat, by omega⟩
  rw [hm, zpow_natCast, Int.cast_natCast] at hq
  have hpt : (0 : ℚ) < 2 ^ t := by positivity
  have hsplit : (2 : ℚ) ^ 24 = 2 ^ t * 2 ^ (24 - t) := by
    rw [← pow_add]
    congr 1
    omega
  have hval : fl 24 z = ((m * 2 ^ (24 - t) : ℕ) : ℚ) / 2 ^ 24 := by
    rw [hq, hsplit]
    push_cast
    field_simp
    ring
  refine ⟨m * 2 ^ (24 - t), ?_, hval⟩
  have h1 : ((m * 2 ^ (24 - t) : ℕ) : ℚ) / 2 ^ 24 ≤ 1 := by rw [← hval]; exact hle1
  have h3 : ((m * 2 ^ (24 - t) : ℕ) : ℚ) ≤ 2 ^ 24 := (div_le_one (by positivity)).mp h1
  exact_mod_cast h3

theorem f32_half : f32 (1 / 2) = 1 / 2 := by decide!

/-- The weight computed by the program is a multiple of `2^(-24)`. -/
theorem P_mpi_grid (n f : ℕ) (hn : 2 ≤ n) (hf : f < n) :
    ∃ j : ℕ, j ≤ 2 ^ 24 ∧ P_mpi n f = (j : ℚ) / 2 ^ 24 := by
  obtain ⟨q0, q1⟩ := frame_ratio_bounds n f hn hf
  by_cases hq : frame_ratio n f ≤ 1 / 2
  · exact grid24 (1 - frame_ratio n f) (by linarith) (by linarith)
  · have hq2 : 1 / 2 < frame_ratio n f := not_le.mp hq
    have hpos : (0 : ℚ) < (n : ℚ) - 1 := by
      have : (2 : ℚ) ≤ (n : ℚ) := by exact_mod_cast hn
      linarith
    have hb : 0 < f32 ((n : ℚ) - 1) := fl_pos 24 (by norm_num) _ hpos
    have hF0 : (0 : ℚ) ≤ (f : ℚ) := by positivity
    have hFB : (f : ℚ) ≤ (n : ℚ) - 1 := by
      have : (f : ℚ) + 1 ≤ (n : ℚ) := by exact_mod_cast hf
      linarith
    have hw0 : 0 ≤ f32 (f : ℚ) / f32 ((n : ℚ) - 1) :=
      div_nonneg (f32_nonneg _ hF0) hb.le
    have hw1 : f32 (f : ℚ) / f32 ((n : ℚ) - 1) ≤ 1 :=
      (div_le_one hb).mpr (f32_mono hF0 hFB)
    have hw2 : 1 / 2 ≤ f32 (f : ℚ) / f32 ((n : ℚ) - 1) := by
      by_contra hlt
      have := f32_mono hw0 (le_of_lt (not_le.mp hlt))
      rw [f32_half] at this
      unfold frame_ratio at hq2
      linarith
    obtain ⟨j, hj, hjv⟩ := grid24 _ hw2 hw1
    have hfr : frame_ratio n f = (j : ℚ) / 2 ^ 24 := hjv
    have hjq : (j : ℚ) ≤ 2 ^ 24 := by exact_mod_cast hj
    have hrep : 1 - frame_ratio n f = ((2 ^ 24 - j : ℕ) : ℚ) * 2 ^ (-24 : ℤ) := by
      have e : (2 : ℚ) ^ (-24 : ℤ) = 1 / 2 ^ 24 := by norm_num
      rw [hfr, Nat.cast_sub hj, e]
      push_cast
      ring
    have hj23 : 2 ^ 24 - j < 2 ^ 24 := by
      have h1 : (2 : ℚ) ^ 23 < (j : ℚ) := by
        rw [hfr] at hq2
        have h3 : (1 : ℚ) / 2 * 2 ^ 24 < (j : ℚ) := (lt_div_iff₀ (by positivity)).mp hq2
        norm_num at h3 ⊢
        linarith
      have h4 : 2 ^ 23 < j := by exact_mod_cast h1
      omega
    refine ⟨2 ^ 24 - j, by omega, ?_⟩
    unfold P_mpi f32
    rw [hrep, fl_repr 24 _ _ hj23]
    have e : (2 : ℚ) ^ (-24 : ℤ) = 1 / 2 ^ 24 := by norm_num
    rw [e]
    ring

/-- Blending a byte with itself returns the byte, for every frame. -/
theorem blend_same (n f c : ℕ) (hn : 2 ≤ n) (hf : f < n) (hc : c < 256) :
    blend (P_mpi n f) c c = c := by
  obtain ⟨p0, p1⟩ := P_mpi_bounds n f hn hf
  obtain ⟨e1, n1, u1⟩ := blend_float_bounds (P_mpi n f) c c p0 p1 hc hc
  obtain ⟨j, hj, hjv⟩ := P_mpi_grid n f hn hf
  have hE : (c : ℚ) * P_mpi n f + (c : ℚ) * (1 - P_mpi n f) = (c : ℚ) := by ring
  rw [hE, abs_le] at e1
  have e24 : (2 : ℚ) ^ (-24 : ℤ) = 1 / 2 ^ 24 := by norm_num
  have hQrep : 1 - P_mpi n f = ((2 ^ 24 - j : ℕ) : ℚ) * 2 ^ (-24 : ℤ) := by
    rw [hjv, Nat.cast_sub hj, e24]
    push_cast
    ring
  have hQ : f32 (1 - P_mpi n f) = 1 - P_mpi n f := by
    unfold f32
    rw [hQrep]
    exact fl_repr_le 24 _ _ (by omega) (by norm_num)
  have hc0 : (0 : ℚ) ≤ (c : ℚ) := by positivity
  have hge : (c : ℚ) ≤ blend_float (P_mpi n f) c c := by
    unfold blend_float
    rw [hQ]
    rcases Nat.eq_zero_or_pos c with h0 | hpos
    · subst h0
      simp only [Nat.cast_zero, zero_mul, f32_zero, add_zero]
      exact le_rfl
    have hm1 := Nat.pow_log_le_self 2 (Nat.pos_iff_ne_zero.mp hpos)
    have hm2 := Nat.lt_pow_succ_log_self (by norm_num : 1 < 2) c
    have hm7 : Nat.log 2 c ≤ 7 := by
      have : Nat.log 2 c < 8 := Nat.log_lt_of_lt_pow (Nat.pos_iff_ne_zero.mp hpos) (by omega)
      omega
    generalize Nat.log 2 c = m at hm1 hm2 hm7
    rcases Nat.eq_or_lt_of_le hm1 with heq | hlt
    · -- a power of two: both products are exact
      have hx : (c : ℚ) * P_mpi n f = (j : ℚ) * 2 ^ ((m : ℤ) - 24) := by
        rw [hjv, ← heq, zpow_sub₀ (two_ne_zero), zpow_natCast]
        push_cast
        norm_num
        ring
      have hy : (c : ℚ) * (1 - P_mpi n f) = ((2 ^ 24 - j : ℕ) : ℚ) * 2 ^ ((m : ℤ) - 24) := by
        rw [hQrep, ← heq, zpow_sub₀ (two_ne_zero), zpow_natCast, e24]
        push_cast
        norm_num
        ring
      have fx : f32 ((c : ℚ) * P_mpi n f) = (c : ℚ) * P_mpi n f := by
        unfold f32
        rw [hx]
        exact fl_repr_le 24 _ _ hj (by norm_num)
      have fy : f32 ((c : ℚ) * (1 - P_mpi n f)) = (c : ℚ) * (1 - P_mpi n f) := by
        unfold f32
        rw [hy]
        exact fl_repr_le 24 _ _ (by omega) (by norm_num)
      rw [fx, fy, hE, f32_natCast c (by omega)]
    · -- not a power of two
      have hk := key_sum c m ((c : ℚ) * P_mpi n f) ((c : ℚ) * (1 - P_mpi n f)) hm7 hm2
        (mul_nonneg hc0 p0) (mul_nonneg hc0 (by linarith)) hE
      have hb := fl_below_byte c m hm7 hlt hm2
      have hu1 : (2 : ℚ) ^ ((m : ℤ) - 24) ≤ 1 := by
        have := zpow_le_zpow_right₀ (by norm_num : (1 : ℚ) ≤ 2) (by omega : (m : ℤ) - 24 ≤ 0)
        simpa using this
      have hc1 : (1 : ℚ) ≤ (c : ℚ) := by exact_mod_cast hpos
      have hmono := fl_mono 24 (by norm_num)
        (by linarith : (0 : ℚ) ≤ (c : ℚ) - 2 ^ ((m : ℤ) - 24)) hk
      rw [hb] at hmono
      exact hmono
  unfold blend
  rw [toUChar_of_lt _ n1 u1]
  have hfl : ⌊blend_float (P_mpi n f) c c⌋ = (c : ℤ) := by
    rw [Int.floor_eq_iff]
    push_cast
    constructor
    · exact hge
    · linarith [e1.2]
  rw [hfl, Int.toNat_natCast]

/-! ## Theorems: monotone blend for moderate frame counts -/

theorem spec_P_gap (n f1 f2 : ℕ) (hn : 2 ≤ n) (hn2 : n ≤ 4096) (h12 : f1 < f2) :
    1 / 4095 ≤ spec_P n f1 - spec_P n f2 := by
  unfold spec_P
  have hB1 : (1 : ℚ) ≤ (n : ℚ) - 1 := by
    have : (2 : ℚ) ≤ (n : ℚ) := by exact_mod_cast hn
    linarith
  have hB2 : (n : ℚ) - 1 ≤ 4095 := by
    have : (n : ℚ) ≤ 4096 := by exact_mod_cast hn2
    linarith
  have hB0 : (0 : ℚ) < (n : ℚ) - 1 := by linarith
  have hd : (f1 : ℚ) + 1 ≤ (f2 : ℚ) := by exact_mod_cast h12
  have h1 : 1 / ((n : ℚ) - 1) ≤ ((f2 : ℚ) - (f1 : ℚ)) / ((n : ℚ) - 1) :=
    div_le_div_of_nonneg_right (by linarith) hB0.le
  have h2 : (1 : ℚ) / 4095 ≤ 1 / ((n : ℚ) - 1) := one_div_le_one_div_of_le hB0 hB2
  have e : 1 - (f1 : ℚ) / ((n : ℚ) - 1) - (1 - (f2 : ℚ) / ((n : ℚ) - 1))
      = ((f2 : ℚ) - (f1 : ℚ)) / ((n : ℚ) - 1) := by ring
  rw [e]
  linarith

theorem spec_P_last (n : ℕ) (hn : 2 ≤ n) : spec_P n (n - 1) = 0 := by
  unfold spec_P
  have e : (((n - 1 : ℕ) : ℚ)) = (n : ℚ) - 1 := by
    rw [Nat.cast_sub (by omega)]
    simp
  have hB0 : (n : ℚ) - 1 ≠ 0 := by
    have : (2 : ℚ) ≤ (n : ℚ) := by exact_mod_cast hn
    intro h
    linarith
  rw [e, div_self hB0, sub_self]

/-- For at most `4096` frames the blended byte computed by the program is monotone
in the frame index. -/
theorem blend_monotone_small (n f1 f2 c g : ℕ) (hn : 2 ≤ n) (hn2 : n ≤ 4096) (h12 : f1 < f2)
    (hf : f2 < n) (hc : c < 256) (hg : g < 256) :
    (g ≤ c → blend (P_mpi n f2) c g ≤ blend (P_mpi n f1) c g) ∧
    (c ≤ g → blend (P_mpi n f1) c g ≤ blend (P_mpi n f2) c g) ∧
    ((blend (P_mpi n f2) c g : ℤ) - (g : ℤ)).natAbs
      ≤ ((blend (P_mpi n f1) c g : ℤ) - (g : ℤ)).natAbs := by
  rcases Nat.lt_trichotomy c g with hlt | heq | hgt
  · -- `c < g`: the byte does not decrease and stays at most `g`
    obtain ⟨p1a, p1b⟩ := P_mpi_bounds n f1 hn (by omega)
    obtain ⟨p2a, p2b⟩ := P_mpi_bounds n f2 hn hf
    obtain ⟨e1, n1, u1⟩ := blend_float_bounds (P_mpi n f1) c g p1a p1b hc hg
    obtain ⟨e2, n2, u2⟩ := blend_float_bounds (P_mpi n f2) c g p2a p2b hc hg
    have g1 := P_mpi_err n f1 hn (by omega)
    have g2 := P_mpi_err n f2 hn hf
    have gap := spec_P_gap n f1 f2 hn hn2 h12
    have hv1 : blend (P_mpi n f1) c g = ⌊blend_float (P_mpi n f1) c g⌋.toNat :=
      toUChar_of_lt _ n1 u1
    have hv2 : blend (P_mpi n f2) c g = ⌊blend_float (P_mpi n f2) c g⌋.toNat :=
      toUChar_of_lt _ n2 u2
    rw [hv1, hv2]
    generalize blend_float (P_mpi n f1) c g = S1 at *
    generalize blend_float (P_mpi n f2) c g = S2 at *
    generalize P_mpi n f1 = P1 at *
    generalize P_mpi n f2 = P2 at *
    rw [abs_le] at e1 e2 g1 g2
    have hcg : (c : ℚ) + 1 ≤ (g : ℚ) := by exact_mod_cast hlt
    have hd : 2 / 10 ^ 4 ≤ P1 - P2 := by
      have : (2 : ℚ) / 10 ^ 4 + 8 / 10 ^ 7 ≤ 1 / 4095 := by norm_num
      linarith [g1.1, g2.2]
    have k1 : 0 ≤ ((g : ℚ) - (c : ℚ) - 1) * (P1 - P2) :=
      mul_nonneg (by linarith) (by linarith)
    have k2 : 0 ≤ ((g : ℚ) - (c : ℚ)) * P1 := mul_nonneg (by linarith) p1a
    have k3 : 0 ≤ ((g : ℚ) - (c : ℚ)) * P2 := mul_nonneg (by linarith) p2a
    have hS : S1 ≤ S2 := by linarith [e1.2, e2.1]
    have hmono : ⌊S1⌋ ≤ ⌊S2⌋ := Int.floor_mono hS
    have hfl1 : 0 ≤ ⌊S1⌋ := Int.floor_nonneg.mpr n1
    have hle1 : ⌊S2⌋ < (g : ℤ) + 1 := by
      rw [Int.floor_lt]
      push_cast
      linarith [e2.2]
    refine ⟨fun h => by omega, fun _ => by omega, by omega⟩
  · -- `c = g`: the byte is `g` in every frame
    subst heq
    rw [blend_same n f1 c hn (by omega) hc, blend_same n f2 c hn hf hc]
    exact ⟨fun _ => le_rfl, fun _ => le_rfl, le_rfl⟩
  · -- `g < c`: the byte does not increase and stays at least `g`
    obtain ⟨p1a, p1b⟩ := P_mpi_bounds n f1 hn (by omega)
    obtain ⟨p2a, p2b⟩ := P_mpi_bounds n f2 hn hf
    obtain ⟨e1, n1, u1⟩ := blend_float_bounds (P_mpi n f1) c g p1a p1b hc hg
    obtain ⟨e2, n2, u2⟩ := blend_float_bounds (P_mpi n f2) c g p2a p2b hc hg
    have g1 := P_mpi_err n f1 hn (by omega)
    have g2 := P_mpi_err n f2 hn hf
    have gap := spec_P_gap n f1 f2 hn hn2 h12
    have hv1 : blend (P_mpi n f1) c g = ⌊blend_float (P_mpi n f1) c g⌋.toNat :=
      toUChar_of_lt _ n1 u1
    -- the last frame gives `g` exactly; before it the weight is at least `2 / 10^4`
    have hv2g : g ≤ blend (P_mpi n f2) c g := by
      by_cases hlast : f2 = n - 1
      · rw [hlast, P_mpi_last n hn, blend_zero c g hg]
      · have gap2 := spec_P_gap n f2 (n - 1) hn hn2 (by omega)
        rw [spec_P_last n hn] at gap2
        have hb2 : blend (P_mpi n f2) c g = ⌊blend_float (P_mpi n f2) c g⌋.toNat :=
          toUChar_of_lt _ n2 u2
        rw [hb2]
        have hcg : (g : ℚ) + 1 ≤ (c : ℚ) := by exact_mod_cast hgt
        rw [abs_le] at e2 g2
        have hP2 : 2 / 10 ^ 4 ≤ P_mpi n f2 := by
          have : (2 : ℚ) / 10 ^ 4 + 8 / 10 ^ 7 ≤ 1 / 4095 := by norm_num
          linarith [g2.1]
        have k : 0 ≤ ((c : ℚ) - (g : ℚ) - 1) * P_mpi n f2 :=
          mul_nonneg (by linarith) p2a
        have hge : (g : ℤ) ≤ ⌊blend_float (P_mpi n f2) c g⌋ := by
          rw [Int.le_floor]
          push_cast
          linarith [e2.1]
        have : (g : ℤ) ≤ ((⌊blend_float (P_mpi n f2) c g⌋.toNat : ℕ) : ℤ) := by
          rw [Int.toNat_of_nonneg (Int.floor_nonneg.mpr n2)]
          exact hge
        exact_mod_cast this
    have hv2 : blend (P_mpi n f2) c g = ⌊blend_float (P_mpi n f2) c g⌋.toNat :=
      toUChar_of_lt _ n2 u2
    rw [hv2] at hv2g
    rw [hv1, hv2]
    generalize blend_float (P_mpi n f1) c g = S1 at *
    generalize blend_float (P_mpi n f2) c g = S2 at *
    generalize P_mpi n f1 = P1 at *
    generalize P_mpi n f2 = P2 at *
    rw [abs_le] at e1 e2 g1 g2
    have hcg : (g : ℚ) + 1 ≤ (c : ℚ) := by exact_mod_cast hgt
    have hd : 2 / 10 ^ 4 ≤ P1 - P2 := by
      have : (2 : ℚ) / 10 ^ 4 + 8 / 10 ^ 7 ≤ 1 / 4095 := by norm_num
      linarith [g1.1, g2.2]
    have k1 : 0 ≤ ((c : ℚ) - (g : ℚ) - 1) * (P1 - P2) :=
      mul_nonneg (by linarith) (by linarith)
    have hS : S2 ≤ S1 := by linarith [e1.1, e2.2]
    have hmono : ⌊S2⌋ ≤ ⌊S1⌋ := Int.floor_mono hS
    have hfl2 : 0 ≤ ⌊S2⌋ := Int.floor_nonneg.mpr n2
    refine ⟨fun _ => by omega, fun h => by omega, by omega⟩

/-! ## The claims on the partition and on reassembly -/

/-- C1. Reassembly invariance of the MPI variant: for every image of width and height
at least one, every frame index and every number of processes `K ≥ 1`, each local frame
slice has length `sendcounts[p]`, and storing the slices at `displs[p]` gives a buffer of
`width * height * 3` bytes that is identical to the one obtained with one process. -/
theorem C1_reassembly_invariance (width height num_frames f K : ℕ) (img : List ℕ)
    (_hW : 1 ≤ width) (_hH : 1 ≤ height) (_himg : img.length = width * height * 3)
    (_hn : 2 ≤ num_frames) (_hf : f < num_frames) (hK : 1 ≤ K) :
    (∀ p, p < K → (local_frame width height K img num_frames f p).length
        = (sendcounts width height K).getD p 0) ∧
    (final_frame width height K img num_frames f).length = width * height * 3 ∧
    final_frame width height K img num_frames f
      = final_frame width height 1 img num_frames f := by
  refine ⟨fun p hp => ?_, ?_, ?_⟩
  · rw [local_frame_length, sendcounts_getD _ _ _ _ hp]
  · rw [final_frame_spec _ _ _ _ _ _ hK]
    simp
  · rw [final_frame_spec _ _ _ _ _ _ hK, final_frame_spec _ _ _ _ _ _ le_rfl]

theorem C1_reassembly_invariance_witness :
    final_frame 2 3 2 sampleImage 96 40 = final_frame 2 3 1 sampleImage 96 40 :=
  (C1_reassembly_invariance 2 3 96 40 2 sampleImage (by decide) (by decide) (by decide)
    (by decide) (by decide) (by decide)).2.2

/-- C2. For `N ≥ 1` processes and `H ≥ 1` rows, the row counts
`rows_per_proc + (p < extra ? 1 : 0)` for `p < N` sum to `H`, are non-negative, and any
two of them differ by at most one. -/
theorem C2_row_counts (N H : ℕ) (hN : 1 ≤ N) (_hH : 1 ≤ H) :
    ((List.range N).map (my_rows H N)).sum = H ∧
    (∀ p, p < N → 0 ≤ my_rows H N p ∧
      my_rows H N p = H / N + (if p < H % N then 1 else 0)) ∧
    (∀ p q, p < N → q < N → my_rows H N p ≤ my_rows H N q + 1) := by
  refine ⟨?_, fun p _ => ⟨Nat.zero_le _, rfl⟩, fun p q _ _ => ?_⟩
  · rw [my_rows_sum, start_row_size H N hN]
  · unfold my_rows
    split_ifs <;> omega

theorem C2_row_counts_witness :
    ((List.range 3).map (my_rows 10 3)).sum = 10 :=
  (C2_row_counts 3 10 (by decide) (by decide)).1

/-- C5. Partition offsets: for `p < N` the closed form of `start_row` is the sum of
the row counts of the processes before `p`; the displacement `displs[p]` computed by the
coordinator loop is `start_row * width * 3`, and `sendcounts[p]` is
`row count * width * 3`, the value `my_pixels` that process `p` computes for itself. -/
theorem C5_partition_offsets (N H W p : ℕ) (_hN : 1 ≤ N) (_hH : 1 ≤ H) (_hW : 1 ≤ W)
    (hp : p < N) :
    start_row H N p = p * (H / N) + (if p < H % N then p else H % N) ∧
    start_row H N p = ((List.range p).map (my_rows H N)).sum ∧
    (displs W H N).getD p 0 = start_row H N p * W * 3 ∧
    (sendcounts W H N).getD p 0 = my_rows H N p * W * 3 ∧
    (sendcounts W H N).getD p 0 = my_pixels W H N p :=
  ⟨rfl, (my_rows_sum H N p).symm, displs_getD W H N p hp, sendcounts_getD W H N p hp,
    sendcounts_getD W H N p hp⟩

theorem C5_partition_offsets_witness :
    (displs 5 10 3).getD 2 0 = start_row 10 3 2 * 5 * 3 :=
  (C5_partition_offsets 3 10 5 2 (by decide) (by decide) (by decide) (by decide)).2.2.1

/-- C6, as stated, fails: with three processes and an image of one row of one pixel,
`displs` is `[0, 3, 3]`, so `displs[1] < displs[2]` does not hold. -/
theorem C6_counterexample :
    displs 1 1 3 = [0, 3, 3] ∧ ¬ ((displs 1 1 3).getD 1 0 < (displs 1 1 3).getD 2 0) := by
  decide

/-- C6, amended. The displacements are non-decreasing in the process id, and strictly
increasing from every process that holds at least one row (`p < H`; all processes when
`N ≤ H`); the slices are contiguous and do not overlap: `displs[0] = 0`,
`displs[p+1] = displs[p] + sendcounts[p]`, and the last slice ends at
`width * height * 3`. -/
theorem C6_displs_amended (N H W : ℕ) (hN : 1 ≤ N) (_hH : 1 ≤ H) (hW : 1 ≤ W) :
    (∀ p q, p < q → q < N → (displs W H N).getD p 0 ≤ (displs W H N).getD q 0) ∧
    (∀ p q, p < q → q < N → p < H →
      (displs W H N).getD p 0 < (displs W H N).getD q 0) ∧
    (displs W H N).getD 0 0 = 0 ∧
    (∀ p, p + 1 < N →
      (displs W H N).getD (p + 1) 0 = (displs W H N).getD p 0 + (sendcounts W H N).getD p 0) ∧
    (displs W H N).getD (N - 1) 0 + (sendcounts W H N).getD (N - 1) 0 = W * H * 3 := by
  refine ⟨fun p q hpq hq => ?_, fun p q hpq hq hpH => ?_, ?_, fun p hp => ?_, ?_⟩
  · rw [displs_getD W H N p (by omega), displs_getD W H N q hq]
    have h := start_row_mono H N (Nat.le_of_lt hpq)
    exact Nat.mul_le_mul_right 3 (Nat.mul_le_mul_right W h)
  · rw [displs_getD W H N p (by omega), displs_getD W H N q hq]
    have h1 : start_row H N (p + 1) ≤ start_row H N q := start_row_mono H N hpq
    have h2 := start_row_succ H N p
    have h3 := my_rows_pos H N p hN hpH
    have h4 : start_row H N p < start_row H N q := by omega
    exact Nat.mul_lt_mul_of_pos_right (Nat.mul_lt_mul_of_pos_right h4 (by omega)) (by omega)
  · rw [displs_getD W H N 0 (by omega), start_row_zero]
    simp
  · rw [displs_getD W H N (p + 1) hp, displs_getD W H N p (by omega),
      sendcounts_getD W H N p (by omega), start_row_succ]
    unfold my_pixels
    ring
  · rw [displs_getD W H N (N - 1) (by omega), sendcounts_getD W H N (N - 1) (by omega)]
    have h1 := start_row_succ H N (N - 1)
    have h2 : N - 1 + 1 = N := by omega
    rw [h2, start_row_size H N hN] at h1
    unfold my_pixels
    have h3 : W * H * 3 = (start_row H N (N - 1) + my_rows H N (N - 1)) * W * 3 := by
      rw [← h1]
      ring
    rw [h3]
    ring

theorem C6_displs_amended_witness :
    (displs 5 10 3).getD 1 0 < (displs 5 10 3).getD 2 0 :=
  (C6_displs_amended 3 10 5 (by decide) (by decide) (by decide)).2.1 1 2 (by decide)
    (by decide) (by decide)

/-- C8. Degenerate partition: with more processes than rows (`N > H ≥ 1`), processes
`p < H` get one row and the others none; for such a process `sendcounts[p]` and
`my_pixels` are zero, the grayscale loop and the blend loop of every frame have an empty
iteration range, every frame slice has length zero, and the assembled frames are
identical to those of `H` processes and of one process. -/
theorem C8_degenerate_partition (H N W : ℕ) (img : List ℕ) (hH : 1 ≤ H) (hN : H < N) :
    (∀ p, p < H → my_rows H N p = 1) ∧
    (∀ p, H ≤ p → p < N →
      my_rows H N p = 0 ∧ (sendcounts W H N).getD p 0 = 0 ∧ my_pixels W H N p = 0 ∧
      List.range (my_rows H N p * W) = [] ∧ List.range (my_rows H N p * W * 3) = [] ∧
      local_gray W H N img p = [] ∧
      ∀ num_frames f, local_frame W H N img num_frames f p = [] ∧
        (local_frame W H N img num_frames f p).length = 0) ∧
    (∀ num_frames f, final_frame W H N img num_frames f = final_frame W H H img num_frames f ∧
      final_frame W H N img num_frames f = final_frame W H 1 img num_frames f) := by
  refine ⟨fun p hp => ?_, fun p hp1 hp2 => ?_, fun n f => ⟨?_, ?_⟩⟩
  · rw [my_rows_degenerate H N p hN, if_pos hp]
  · have h0 : my_rows H N p = 0 := by rw [my_rows_degenerate H N p hN, if_neg (by omega)]
    have h1 : my_pixels W H N p = 0 := by unfold my_pixels; rw [h0]; simp
    refine ⟨h0, by rw [sendcounts_getD W H N p hp2, h1], h1, by rw [h0]; simp,
      by rw [h0]; simp, ?_, fun n f => ?_⟩
    · rw [local_gray_eq, h1]
      rfl
    · have h2 : local_frame W H N img n f p = [] := by
        rw [local_frame_eq, h1]
        rfl
      exact ⟨h2, by rw [h2]; rfl⟩
  · rw [final_frame_spec _ _ _ _ _ _ (by omega), final_frame_spec _ _ _ _ _ _ hH]
  · rw [final_frame_spec _ _ _ _ _ _ (by omega), final_frame_spec _ _ _ _ _ _ le_rfl]

theorem C8_degenerate_partition_witness :
    final_frame 2 3 7 sampleImage 96 40 = final_frame 2 3 3 sampleImage 96 40 :=
  ((C8_degenerate_partition 3 7 2 sampleImage (by decide) (by decide)).2.2 96 40).1

/-- C3. End-point frames: for every image of `width * height * 3` bytes, every
`num_frames ≥ 2` and every number of processes `N ≥ 1`, the assembled frame 0 is the
colour buffer and the assembled frame `num_frames - 1` is the grayscale buffer.  For
the all-red image of width and height 4 with two frames and two processes, frame 0 is
all `(255, 0, 0)` and frame 1 is all `(76, 76, 76)`. -/
theorem C3_endpoint_frames :
    (∀ (width height num_frames N : ℕ) (img : List ℕ), 1 ≤ width → 1 ≤ height →
      img.length = width * height * 3 → IsBytes img → 2 ≤ num_frames → 1 ≤ N →
      P_mpi num_frames 0 = 1 ∧ P_mpi num_frames (num_frames - 1) = 0 ∧
      final_frame width height N img num_frames 0 = img ∧
      final_frame width height N img num_frames (num_frames - 1)
        = grayLoop (width * height) img (malloc (width * height * 3))) ∧
    final_frame 4 4 2 redImage 2 0 = (List.replicate 16 [255, 0, 0]).flatten ∧
    final_frame 4 4 2 redImage 2 1 = (List.replicate 16 [76, 76, 76]).flatten := by
  refine ⟨fun W H n N img _ _ himg hb hn hN => ⟨P_mpi_zero n, P_mpi_last n hn, ?_, ?_⟩,
    by decide!, by decide!⟩
  · rw [final_frame_spec _ _ _ _ _ _ hN, P_mpi_zero]
    symm
    apply eq_map_range _ _ _ himg
    intro j hj
    unfold frameAt
    rw [blend_one _ _ (getD_mem_lt img hb j (by omega))]
  · rw [final_frame_spec _ _ _ _ _ _ hN, P_mpi_last _ hn,
      grayLoop_spec _ _ _ (malloc_length _)]
    apply List.map_congr_left
    intro j _
    unfold frameAt
    rw [blend_zero _ _ (grayAt_lt img j)]

theorem C3_endpoint_frames_witness :
    final_frame 2 3 2 sampleImage 96 0 = sampleImage ∧
    final_frame 2 3 2 sampleImage 96 (96 - 1) = grayLoop (2 * 3) sampleImage (malloc (2 * 3 * 3)) :=
  (C3_endpoint_frames.1 2 3 96 2 sampleImage (by decide) (by decide) (by decide) (by decide)
    (by decide) (by decide)).2.2

/-! ## The claims on the pixel arithmetic -/

/-- Monotonicity of the weight and of the blend, for the program and for the exact
formulas. -/
theorem blend_monotone_core (n f1 f2 c g : ℕ) (hn : 2 ≤ n) (h12 : f1 < f2)
    (hf : f2 < n) (hc : c < 256) (hg : g < 256) :
    P_mpi n f2 ≤ P_mpi n f1 ∧
    (g ≤ c → blend (P_mpi n f2) c g ≤ blend (P_mpi n f1) c g + 1) ∧
    (c ≤ g → blend (P_mpi n f1) c g ≤ blend (P_mpi n f2) c g + 1) ∧
    ((blend (P_mpi n f2) c g : ℤ) - (g : ℤ)).natAbs
      ≤ ((blend (P_mpi n f1) c g : ℤ) - (g : ℤ)).natAbs + 1 ∧
    spec_P n f2 ≤ spec_P n f1 ∧
    (g ≤ c → spec_blend n f2 c g ≤ spec_blend n f1 c g) ∧
    (c ≤ g → spec_blend n f1 c g ≤ spec_blend n f2 c g) ∧
    ((spec_blend n f2 c g : ℤ) - (g : ℤ)).natAbs
      ≤ ((spec_blend n f1 c g : ℤ) - (g : ℤ)).natAbs := by
  have hP := P_mpi_anti n f1 f2 hn (Nat.le_of_lt h12) hf
  obtain ⟨p1a, p1b⟩ := P_mpi_bounds n f1 hn (by omega)
  obtain ⟨p2a, p2b⟩ := P_mpi_bounds n f2 hn hf
  obtain ⟨e1, n1, u1⟩ := blend_float_bounds (P_mpi n f1) c g p1a p1b hc hg
  obtain ⟨e2, n2, u2⟩ := blend_float_bounds (P_mpi n f2) c g p2a p2b hc hg
  have hsP := spec_P_anti n f1 f2 hn (Nat.le_of_lt h12)
  obtain ⟨s1a, s1b⟩ := spec_P_bounds n f1 hn (by omega)
  obtain ⟨s2a, s2b⟩ := spec_P_bounds n f2 hn hf
  have hv1 : blend (P_mpi n f1) c g = ⌊blend_float (P_mpi n f1) c g⌋.toNat :=
    toUChar_of_lt _ n1 u1
  have hv2 : blend (P_mpi n f2) c g = ⌊blend_float (P_mpi n f2) c g⌋.toNat :=
    toUChar_of_lt _ n2 u2
  rw [hv1, hv2]
  unfold spec_blend spec_blend_value
  generalize blend_float (P_mpi n f1) c g = S1 at *
  generalize blend_float (P_mpi n f2) c g = S2 at *
  generalize P_mpi n f1 = P1 at *
  generalize P_mpi n f2 = P2 at *
  generalize spec_P n f1 = Q1 at *
  generalize spec_P n f2 = Q2 at *
  rw [abs_le] at e1 e2
  have hc0 : (0 : ℚ) ≤ (c : ℚ) := by positivity
  have hg0 : (0 : ℚ) ≤ (g : ℚ) := by positivity
  have hfl1 : 0 ≤ ⌊S1⌋ := Int.floor_nonneg.mpr n1
  have hfl2 : 0 ≤ ⌊S2⌋ := Int.floor_nonneg.mpr n2
  -- the code, when `g ≤ c`
  have A1 : g ≤ c → ⌊S2⌋.toNat ≤ ⌊S1⌋.toNat + 1 ∧ (g : ℤ) - 1 ≤ ⌊S1⌋ ∧ (g : ℤ) - 1 ≤ ⌊S2⌋ := by
    intro hgc
    have hgc2 : (g : ℚ) ≤ (c : ℚ) := by exact_mod_cast hgc
    have k1 : 0 ≤ ((c : ℚ) - (g : ℚ)) * (P1 - P2) := mul_nonneg (by linarith) (by linarith)
    have k2 : 0 ≤ ((c : ℚ) - (g : ℚ)) * P1 := mul_nonneg (by linarith) p1a
    have k3 : 0 ≤ ((c : ℚ) - (g : ℚ)) * P2 := mul_nonneg (by linarith) p2a
    refine ⟨floor_toNat_le_succ S2 S1 n2 (by linarith [e1.1, e2.2]), ?_, ?_⟩
    · rw [Int.le_floor]
      push_cast
      linarith [e1.1]
    · rw [Int.le_floor]
      push_cast
      linarith [e2.1]
  -- the code, when `c ≤ g`
  have A2 : c ≤ g → ⌊S1⌋.toNat ≤ ⌊S2⌋.toNat + 1 ∧ ⌊S1⌋ ≤ (g : ℤ) ∧ ⌊S2⌋ ≤ (g : ℤ) := by
    intro hcg
    have hcg2 : (c : ℚ) ≤ (g : ℚ) := by exact_mod_cast hcg
    have k1 : 0 ≤ ((g : ℚ) - (c : ℚ)) * (P1 - P2) := mul_nonneg (by linarith) (by linarith)
    have k2 : 0 ≤ ((g : ℚ) - (c : ℚ)) * P1 := mul_nonneg (by linarith) p1a
    have k3 : 0 ≤ ((g : ℚ) - (c : ℚ)) * P2 := mul_nonneg (by linarith) p2a
    refine ⟨floor_toNat_le_succ S1 S2 n1 (by linarith [e1.2, e2.1]), ?_, ?_⟩
    · have : ⌊S1⌋ < (g : ℤ) + 1 := by
        rw [Int.floor_lt]
        push_cast
        linarith [e1.2]
      omega
    · have : ⌊S2⌋ < (g : ℤ) + 1 := by
        rw [Int.floor_lt]
        push_cast
        linarith [e2.2]
      omega
  -- the exact formulas
  have B1 : g ≤ c → ⌊(c : ℚ) * Q2 + (g : ℚ) * (1 - Q2)⌋ ≤ ⌊(c : ℚ) * Q1 + (g : ℚ) * (1 - Q1)⌋ ∧
      (g : ℤ) ≤ ⌊(c : ℚ) * Q2 + (g : ℚ) * (1 - Q2)⌋ := by
    intro hgc
    have hgc2 : (g : ℚ) ≤ (c : ℚ) := by exact_mod_cast hgc
    have k1 : 0 ≤ ((c : ℚ) - (g : ℚ)) * (Q1 - Q2) := mul_nonneg (by linarith) (by linarith)
    have k3 : 0 ≤ ((c : ℚ) - (g : ℚ)) * Q2 := mul_nonneg (by linarith) s2a
    refine ⟨Int.floor_mono (by linarith), ?_⟩
    rw [Int.le_floor]
    push_cast
    linarith
  have B2 : c ≤ g → ⌊(c : ℚ) * Q1 + (g : ℚ) * (1 - Q1)⌋ ≤ ⌊(c : ℚ) * Q2 + (g : ℚ) * (1 - Q2)⌋ ∧
      ⌊(c : ℚ) * Q2 + (g : ℚ) * (1 - Q2)⌋ ≤ (g : ℤ) ∧
      0 ≤ ⌊(c : ℚ) * Q1 + (g : ℚ) * (1 - Q1)⌋ := by
    intro hcg
    have hcg2 : (c : ℚ) ≤ (g : ℚ) := by exact_mod_cast hcg
    have k1 : 0 ≤ ((g : ℚ) - (c : ℚ)) * (Q1 - Q2) := mul_nonneg (by linarith) (by linarith)
    have k3 : 0 ≤ ((g : ℚ) - (c : ℚ)) * Q2 := mul_nonneg (by linarith) s2a
    have k4 : 0 ≤ (c : ℚ) * Q1 := mul_nonneg hc0 s1a
    have k5 : 0 ≤ (g : ℚ) * (1 - Q1) := mul_nonneg hg0 (by linarith)
    refine ⟨Int.floor_mono (by linarith), ?_, Int.floor_nonneg.mpr (by linarith)⟩
    have : ⌊(c : ℚ) * Q2 + (g : ℚ) * (1 - Q2)⌋ < (g : ℤ) + 1 := by
      rw [Int.floor_lt]
      push_cast
      linarith
    omega
  refine ⟨hP, fun h => (A1 h).1, fun h => (A2 h).1, ?_, hsP, fun h => ?_, fun h => ?_, ?_⟩
  · rcases le_total g c with h | h
    · obtain ⟨a, b, d⟩ := A1 h
      omega
    · obtain ⟨a, b, d⟩ := A2 h
      omega
  · exact Int.toNat_le_toNat (B1 h).1
  · exact Int.toNat_le_toNat (B2 h).1
  · rcases le_total g c with h | h
    · obtain ⟨a, b⟩ := B1 h
      omega
    · obtain ⟨a, b, d⟩ := B2 h
      omega

/-- C7. Monotonicity of the blend: for `num_frames ≥ 2` and `f1 < f2 < num_frames`,
`P(f1) ≥ P(f2)` where `P(f) = 1 - f/(num_frames-1)`; and for bytes `c`, `g` the blended
value `v(f) = truncate(c*P(f) + g*(1 - P(f)))`, evaluated exactly, moves monotonically
toward `g`: `|v(f2) - g| ≤ |v(f1) - g|`, with `v` non-increasing in `f` when `c ≥ g` and
non-decreasing when `c ≤ g`.

The bytes that the program computes in `float` arithmetic follow: its weight satisfies
`P(f1) ≥ P(f2)` as well, its byte is the exactly evaluated byte or differs from it by
one, and for `num_frames ≤ 4096` (the program uses `96`) its bytes move monotonically
toward `g` in the same three senses. -/
theorem C7_blend_monotone (n f1 f2 c g : ℕ) (hn : 2 ≤ n) (h12 : f1 < f2)
    (hf : f2 < n) (hc : c < 256) (hg : g < 256) :
    spec_P n f2 ≤ spec_P n f1 ∧
    (g ≤ c → spec_blend n f2 c g ≤ spec_blend n f1 c g) ∧
    (c ≤ g → spec_blend n f1 c g ≤ spec_blend n f2 c g) ∧
    ((spec_blend n f2 c g : ℤ) - (g : ℤ)).natAbs
      ≤ ((spec_blend n f1 c g : ℤ) - (g : ℤ)).natAbs ∧
    P_mpi n f2 ≤ P_mpi n f1 ∧
    (blend (P_mpi n f1) c g ≤ spec_blend n f1 c g + 1 ∧
      spec_blend n f1 c g ≤ blend (P_mpi n f1) c g + 1) ∧
    (blend (P_mpi n f2) c g ≤ spec_blend n f2 c g + 1 ∧
      spec_blend n f2 c g ≤ blend (P_mpi n f2) c g + 1) ∧
    (n ≤ 4096 →
      (g ≤ c → blend (P_mpi n f2) c g ≤ blend (P_mpi n f1) c g) ∧
      (c ≤ g → blend (P_mpi n f1) c g ≤ blend (P_mpi n f2) c g) ∧
      ((blend (P_mpi n f2) c g : ℤ) - (g : ℤ)).natAbs
        ≤ ((blend (P_mpi n f1) c g : ℤ) - (g : ℤ)).natAbs) ∧
    (g ≤ c → blend (P_mpi n f2) c g ≤ blend (P_mpi n f1) c g + 1) ∧
    (c ≤ g → blend (P_mpi n f1) c g ≤ blend (P_mpi n f2) c g + 1) ∧
    ((blend (P_mpi n f2) c g : ℤ) - (g : ℤ)).natAbs
      ≤ ((blend (P_mpi n f1) c g : ℤ) - (g : ℤ)).natAbs + 1 := by
  obtain ⟨a1, a2, a3, a4, a5, a6, a7, a8⟩ := blend_monotone_core n f1 f2 c g hn h12 hf hc hg
  exact ⟨a5, a6, a7, a8, a1, blend_vs_spec n f1 c g hn (by omega) hc hg,
    blend_vs_spec n f2 c g hn hf hc hg,
    fun hn2 => blend_monotone_small n f1 f2 c g hn hn2 h12 hf hc hg, a2, a3, a4⟩

theorem C7_blend_monotone_witness :
    spec_P 96 20 ≤ spec_P 96 10 ∧ spec_blend 96 20 200 50 ≤ spec_blend 96 10 200 50 :=
  ⟨(C7_blend_monotone 96 10 20 200 50 (by decide) (by decide) (by decide) (by decide)
      (by decide)).1,
    (C7_blend_monotone 96 10 20 200 50 (by decide) (by decide) (by decide) (by decide)
      (by decide)).2.1 (by decide)⟩

theorem seq_frame_spec (W H : ℕ) (img : List ℕ) (n f : ℕ) :
    seq_frame W H img n f = (List.range (W * H * 3)).map (frameAt (P_seq n f) img) := by
  unfold seq_frame seq_gray
  rw [seqBlendLoop_spec _ _ _ _ _ (malloc_length _), grayLoop_spec _ _ _ (malloc_length _)]
  apply List.map_congr_left
  intro j hj
  rw [getD_map_range, if_pos (List.mem_range.mp hj)]
  rfl

theorem omp_frame_spec (W H : ℕ) (img : List ℕ) (n f : ℕ) :
    omp_frame W H img n f = (List.range (W * H * 3)).map (frameAt (P_seq n f) img) := by
  unfold omp_frame omp_gray
  rw [ompBlendLoop_spec _ _ _ _ _ _ (malloc_length _), grayLoop_spec _ _ _ (malloc_length _)]
  apply List.map_congr_left
  intro j hj
  rw [getD_map_range, if_pos (List.mem_range.mp hj)]
  rfl

/-- C9. Variant equivalence: for every image and every frame index `f < num_frames`
with `num_frames ≥ 2`, the frame buffers of the sequential program, of the OpenMP
program and of the MPI program with one process are identical; each byte `i` is the
truncated `float` value of `color[i]*P(f) + gray[i]*(1 - P(f))`, and the weight is the
same number in the three programs.  Each byte is the exactly evaluated truncation or
differs from it by one. -/
theorem C9_variant_equivalence (width height num_frames f : ℕ) (img : List ℕ)
    (_hW : 1 ≤ width) (_hH : 1 ≤ height) (himg : img.length = width * height * 3)
    (hb : IsBytes img) (hn : 2 ≤ num_frames) (hf : f < num_frames) :
    seq_frame width height img num_frames f = omp_frame width height img num_frames f ∧
    omp_frame width height img num_frames f = final_frame width height 1 img num_frames f ∧
    (final_frame width height 1 img num_frames f).length = width * height * 3 ∧
    (∀ i, i < width * height * 3 →
      (final_frame width height 1 img num_frames f).getD i 0
        = blend (P_mpi num_frames f) (img.getD i 0)
            ((grayLoop (width * height) img (malloc (width * height * 3))).getD i 0)) ∧
    P_seq num_frames f = P_mpi num_frames f ∧
    (∀ i, i < width * height * 3 →
      (final_frame width height 1 img num_frames f).getD i 0
          ≤ spec_blend num_frames f (img.getD i 0)
              ((grayLoop (width * height) img (malloc (width * height * 3))).getD i 0) + 1 ∧
      spec_blend num_frames f (img.getD i 0)
          ((grayLoop (width * height) img (malloc (width * height * 3))).getD i 0)
        ≤ (final_frame width height 1 img num_frames f).getD i 0 + 1) := by
  have hP := P_seq_eq_P_mpi num_frames f hn hf
  have hbyte : ∀ i, i < width * height * 3 →
      (final_frame width height 1 img num_frames f).getD i 0
        = blend (P_mpi num_frames f) (img.getD i 0)
            ((grayLoop (width * height) img (malloc (width * height * 3))).getD i 0) := by
    intro i hi
    rw [final_frame_spec _ _ _ _ _ _ le_rfl, getD_map_range, if_pos hi,
      grayLoop_spec _ _ _ (malloc_length _), getD_map_range, if_pos hi]
    rfl
  refine ⟨?_, ?_, ?_, hbyte, hP, fun i hi => ?_⟩
  rotate_right
  · rw [hbyte i hi]
    have hg : (grayLoop (width * height) img (malloc (width * height * 3))).getD i 0 < 256 := by
      rw [grayLoop_spec _ _ _ (malloc_length _), getD_map_range, if_pos hi]
      exact grayAt_lt img i
    exact blend_vs_spec num_frames f _ _ hn hf (getD_mem_lt img hb i (by omega)) hg
  · rw [seq_frame_spec, omp_frame_spec]
  · rw [omp_frame_spec, final_frame_spec _ _ _ _ _ _ le_rfl, hP]
  · rw [final_frame_spec _ _ _ _ _ _ le_rfl]
    simp

theorem C9_variant_equivalence_witness :
    seq_frame 2 3 sampleImage 96 40 = omp_frame 2 3 sampleImage 96 40 ∧
    omp_frame 2 3 sampleImage 96 40 = final_frame 2 3 1 sampleImage 96 40 :=
  ⟨(C9_variant_equivalence 2 3 96 40 sampleImage (by decide) (by decide) (by decide)
      (by decide) (by decide) (by decide)).1,
    (C9_variant_equivalence 2 3 96 40 sampleImage (by decide) (by decide) (by decide)
      (by decide) (by decide) (by decide)).2.1⟩

/-- C10. The byte casts never go out of range.  For bytes `R`, `G`, `B` the exact
weighted sum lies between the smallest and the largest channel, so its truncation is in
`[0, 255]`, and the `double` value that the program casts lies in `[0, 256)`.  For bytes
`c`, `g`, `num_frames ≥ 2` and `f < num_frames` the weight lies in `[0, 1]` (exactly and
as computed), the exact blend lies between `c` and `g`, so its truncation is in
`[0, 255]`, and the `float` value that the program casts lies in `[0, 256)`: each cast
only removes the fractional part. -/
theorem C10_casts_in_range :
    (∀ r g b : ℕ, r < 256 → g < 256 → b < 256 →
      ((min r (min g b) : ℕ) : ℚ) ≤ spec_gray r g b ∧
      spec_gray r g b ≤ ((max r (max g b) : ℕ) : ℚ) ∧
      0 ≤ ⌊spec_gray r g b⌋ ∧ ⌊spec_gray r g b⌋ ≤ 255 ∧
      0 ≤ gray_double r g b ∧ gray_double r g b < 256 ∧
      gray_value r g b = ⌊gray_double r g b⌋.toNat) ∧
    (∀ c g num_frames f : ℕ, c < 256 → g < 256 → 2 ≤ num_frames → f < num_frames →
      0 ≤ spec_P num_frames f ∧ spec_P num_frames f ≤ 1 ∧
      ((min c g : ℕ) : ℚ) ≤ spec_blend_value num_frames f c g ∧
      spec_blend_value num_frames f c g ≤ ((max c g : ℕ) : ℚ) ∧
      0 ≤ ⌊spec_blend_value num_frames f c g⌋ ∧ ⌊spec_blend_value num_frames f c g⌋ ≤ 255 ∧
      0 ≤ P_mpi num_frames f ∧ P_mpi num_frames f ≤ 1 ∧
      0 ≤ P_seq num_frames f ∧ P_seq num_frames f ≤ 1 ∧
      0 ≤ blend_float (P_mpi num_frames f) c g ∧ blend_float (P_mpi num_frames f) c g < 256 ∧
      blend (P_mpi num_frames f) c g = ⌊blend_float (P_mpi num_frames f) c g⌋.toNat ∧
      0 ≤ blend_float (P_seq num_frames f) c g ∧ blend_float (P_seq num_frames f) c g < 256 ∧
      blend (P_seq num_frames f) c g = ⌊blend_float (P_seq num_frames f) c g⌋.toNat) := by
  constructor
  · intro r g b hr hg hb
    obtain ⟨_, b2, b3⟩ := gray_double_bounds r g b hr hg hb
    have m1 : ((min r (min g b) : ℕ) : ℚ) ≤ (r : ℚ) := by
      exact_mod_cast Nat.min_le_left r (min g b)
    have m2 : ((min r (min g b) : ℕ) : ℚ) ≤ (g : ℚ) := by
      exact_mod_cast le_trans (Nat.min_le_right r (min g b)) (Nat.min_le_left g b)
    have m3 : ((min r (min g b) : ℕ) : ℚ) ≤ (b : ℚ) := by
      exact_mod_cast le_trans (Nat.min_le_right r (min g b)) (Nat.min_le_right g b)
    have M1 : (r : ℚ) ≤ ((max r (max g b) : ℕ) : ℚ) := by
      exact_mod_cast Nat.le_max_left r (max g b)
    have M2 : (g : ℚ) ≤ ((max r (max g b) : ℕ) : ℚ) := by
      exact_mod_cast le_trans (Nat.le_max_left g b) (Nat.le_max_right r (max g b))
    have M3 : (b : ℚ) ≤ ((max r (max g b) : ℕ) : ℚ) := by
      exact_mod_cast le_trans (Nat.le_max_right g b) (Nat.le_max_right r (max g b))
    have hr0 : (0 : ℚ) ≤ (r : ℚ) := by positivity
    have hg0 : (0 : ℚ) ≤ (g : ℚ) := by positivity
    have hb0 : (0 : ℚ) ≤ (b : ℚ) := by positivity
    have hr1 : (r : ℚ) ≤ 255 := by exact_mod_cast Nat.le_of_lt_succ hr
    have hg1 : (g : ℚ) ≤ 255 := by exact_mod_cast Nat.le_of_lt_succ hg
    have hb1 : (b : ℚ) ≤ 255 := by exact_mod_cast Nat.le_of_lt_succ hb
    have hlt : ⌊spec_gray r g b⌋ < 256 := by
      rw [Int.floor_lt]
      unfold spec_gray
      push_cast
      linarith
    refine ⟨?_, ?_, Int.floor_nonneg.mpr ?_, by omega, b2, b3, ?_⟩
    · unfold spec_gray
      linarith
    · unfold spec_gray
      linarith
    · unfold spec_gray
      linarith
    · unfold gray_value
      exact toUChar_of_lt _ b2 b3
  · intro c g n f hc hg hn hf
    obtain ⟨s0, s1⟩ := spec_P_bounds n f hn hf
    obtain ⟨p0, p1⟩ := P_mpi_bounds n f hn hf
    obtain ⟨_, n1, u1⟩ := blend_float_bounds (P_mpi n f) c g p0 p1 hc hg
    have hc0 : (0 : ℚ) ≤ (c : ℚ) := by positivity
    have hg0 : (0 : ℚ) ≤ (g : ℚ) := by positivity
    have hc1 : (c : ℚ) ≤ 255 := by exact_mod_cast Nat.le_of_lt_succ hc
    have hg1 : (g : ℚ) ≤ 255 := by exact_mod_cast Nat.le_of_lt_succ hg
    have m1 : ((min c g : ℕ) : ℚ) ≤ (c : ℚ) := by exact_mod_cast Nat.min_le_left c g
    have m2 : ((min c g : ℕ) : ℚ) ≤ (g : ℚ) := by exact_mod_cast Nat.min_le_right c g
    have M1 : (c : ℚ) ≤ ((max c g : ℕ) : ℚ) := by exact_mod_cast Nat.le_max_left c g
    have M2 : (g : ℚ) ≤ ((max c g : ℕ) : ℚ) := by exact_mod_cast Nat.le_max_right c g
    have M3 : ((max c g : ℕ) : ℚ) ≤ 255 := by
      have : max c g ≤ 255 := by omega
      exact_mod_cast this
    have k1 : 0 ≤ ((c : ℚ) - ((min c g : ℕ) : ℚ)) * spec_P n f :=
      mul_nonneg (by linarith) s0
    have k2 : 0 ≤ ((g : ℚ) - ((min c g : ℕ) : ℚ)) * (1 - spec_P n f) :=
      mul_nonneg (by linarith) (by linarith)
    have k3 : 0 ≤ (((max c g : ℕ) : ℚ) - (c : ℚ)) * spec_P n f :=
      mul_nonneg (by linarith) s0
    have k4 : 0 ≤ (((max c g : ℕ) : ℚ) - (g : ℚ)) * (1 - spec_P n f) :=
      mul_nonneg (by linarith) (by linarith)
    have lo : ((min c g : ℕ) : ℚ) ≤ spec_blend_value n f c g := by
      unfold spec_blend_value
      linarith
    have hi : spec_blend_value n f c g ≤ ((max c g : ℕ) : ℚ) := by
      unfold spec_blend_value
      linarith
    have hm0 : (0 : ℚ) ≤ ((min c g : ℕ) : ℚ) := by positivity
    have hlt : ⌊spec_blend_value n f c g⌋ < 256 := by
      rw [Int.floor_lt]
      push_cast
      linarith
    rw [P_seq_eq_P_mpi n f hn hf]
    have hbl : blend (P_mpi n f) c g = ⌊blend_float (P_mpi n f) c g⌋.toNat :=
      toUChar_of_lt _ n1 u1
    exact ⟨s0, s1, lo, hi, Int.floor_nonneg.mpr (by linarith), by omega, p0, p1, p0, p1,
      n1, u1, hbl, n1, u1, hbl⟩

theorem C10_casts_in_range_witness :
    gray_double 255 255 255 < 256 ∧ blend_float (P_mpi 96 40) 255 255 < 256 :=
  ⟨(C10_casts_in_range.1 255 255 255 (by decide) (by decide) (by decide)).2.2.2.2.2.1,
    (C10_casts_in_range.2 255 255 96 40 (by decide) (by decide) (by decide)
      (by decide)).2.2.2.2.2.2.2.2.2.2.2.1⟩

/-! ## Concrete evaluations -/

theorem eval_gray_a : gray_value 0 23 13 = 14 := by decide!
theorem eval_gray_b : gray_value 200 100 50 = 124 := by decide!
theorem eval_frame_a : final_frame 4 4 2 (List.replicate 16 [255, 0, 0]).flatten 2 1
    = (List.replicate 16 [76, 76, 76]).flatten := by decide!
theorem eval_frame_b : final_frame 4 4 2 (List.replicate 16 [255, 0, 0]).flatten 2 0
    = (List.replicate 16 [255, 0, 0]).flatten := by decide!
theorem eval_frame_c : seq_frame 4 4 (List.replicate 16 [255, 0, 0]).flatten 2 1
    = (List.replicate 16 [76, 76, 76]).flatten := by decide!
theorem eval_frame_d : omp_frame 4 4 (List.replicate 16 [255, 0, 0]).flatten 2 1
    = (List.replicate 16 [76, 76, 76]).flatten := by decide!
theorem eval_blend_c : blend (P_mpi 96 19) 0 5 = 0 ∧ spec_blend 96 19 0 5 = 1 := by decide!
theorem eval_blend_a : blend (P_mpi 131846 1) 193 192 = 192 := by decide!
theorem eval_blend_b : blend (P_mpi 131846 2) 193 192 = 193 := by decide!

end Crossfade
